import Mathlib

/-!
# Verification of the ListPreview Link Normalization & Metadata Resolution Engine

Shallow embedding of the core functions of the repository
(`src/App.tsx` and `src/services/metadataService.ts`) and proofs of the
specification's testable properties.

Modelling conventions:
* JavaScript strings are modelled by Lean `String` (a list of characters);
  character-level algorithms work on `List Char`.  Case conversion and
  whitespace tests are modelled for the ASCII range (all inputs of interest
  are ASCII).
* The WHATWG `URL` constructor is modelled by `parseChars` for URLs of the
  form `scheme://host/path?query#fragment`.  The model covers the subset of
  the URL standard exercised by this code base: special `scheme://` URLs
  without userinfo or port, without percent-decoding and without dot-segment
  normalisation.  A URL the model cannot represent is treated as a parse
  failure (the `catch` branch of the source).
* `fetch` and `DOMParser` are browser APIs; they are modelled as oracle
  arguments (`Option FetchResp` for the two proxied fetch attempts, a
  `DocModel` oracle for the parsed HTML document).
-/

namespace ListPreview

/-- Characters of a JavaScript string. -/
abbrev Chars := List Char

/-! ## Generic character-list helpers -/

/-- JS `String.prototype.trim` on characters: strip leading and trailing
whitespace. -/
def trimChars (l : Chars) : Chars :=
  ((l.dropWhile Char.isWhitespace).reverse.dropWhile Char.isWhitespace).reverse

/-- JS `String.prototype.trim`. -/
def jsTrim (s : String) : String :=
  ⟨trimChars s.data⟩

/-- JS `String.prototype.toLowerCase` (ASCII). -/
def jsToLower (s : String) : String :=
  ⟨s.data.map Char.toLower⟩

/-- JS `String.prototype.toUpperCase` (ASCII). -/
def jsToUpper (s : String) : String :=
  ⟨s.data.map Char.toUpper⟩

/-- JS `String.prototype.startsWith`. -/
def strStarts (s pat : String) : Bool :=
  pat.data.isPrefixOf s.data

/-- `pat` occurs as a contiguous substring of `l` (JS `String.prototype.includes`). -/
def containsSub (pat l : Chars) : Bool :=
  l.tails.any (fun t => pat.isPrefixOf t)

/-- JS `includes` on strings. -/
def strIncludes (s pat : String) : Bool :=
  containsSub pat.data s.data

/-- Split at the first occurrence of `c`: returns the part before and,
when `c` occurs, the part after it. -/
def splitAtChar (c : Char) : Chars → Chars × Option Chars
  | [] => ([], none)
  | x :: xs =>
    if x = c then ([], some xs)
    else
      let r := splitAtChar c xs
      (x :: r.1, r.2)

/-- Split at every occurrence of `c` (JS `String.prototype.split`). -/
def splitChar (c : Char) : Chars → List Chars
  | [] => [[]]
  | x :: xs =>
    if x = c then [] :: splitChar c xs
    else
      match splitChar c xs with
      | [] => [[x]]
      | h :: t => (x :: h) :: t

/-- Join with separator `c` (inverse of `splitChar` on separator-free parts). -/
def joinChar (c : Char) : List Chars → Chars
  | [] => []
  | [s] => s
  | s :: rest => s ++ c :: joinChar c rest

/-- Keep the first occurrence of every element, in order
(JS `Array.from(new Set(xs))`). -/
def dedupKeepFirstAux (seen : List String) : List String → List String
  | [] => []
  | x :: xs =>
    if x ∈ seen then dedupKeepFirstAux seen xs
    else x :: dedupKeepFirstAux (x :: seen) xs

/-- JS `Array.from(new Set(xs))`: deduplicate keeping insertion order. -/
def dedupKeepFirst (xs : List String) : List String :=
  dedupKeepFirstAux [] xs

/-! ## URL model (WHATWG `new URL`, restricted as described above) -/

/-- Parsed URL: `scheme://host path ?query #fragment`.
`path` always starts with `'/'` (the parser inserts the root path, as the
URL standard does for special schemes). -/
structure URLModel where
  scheme : Chars
  host : Chars
  path : Chars
  query : Option Chars
  fragment : Option Chars
deriving DecidableEq, Repr

/-- The JS regex `^[a-zA-Z]+:\/\//`: leading alphabetic scheme followed by
`://`; returns the scheme and the remainder. -/
def schemeSplit (l : Chars) : Option (Chars × Chars) :=
  let pre := l.takeWhile Char.isAlpha
  let rest := l.drop pre.length
  if pre ≠ [] ∧ rest.take 3 = [':', '/', '/'] then some (pre, rest.drop 3) else none

/-- Code points that make `new URL` reject a hostname. -/
def forbiddenHostChar (c : Char) : Bool :=
  c = ' ' ∨ c = '\t' ∨ c = '\n' ∨ c = '\r' ∨ c = '@' ∨ c = '%' ∨
  c = '[' ∨ c = ']' ∨ c = '\\' ∨ c = '^' ∨ c = '|' ∨ c = '<' ∨ c = '>' ∨ c = ':'

/-- Model of `new URL(s)` (absolute form).  `none` models the constructor
throwing.  Fragment is cut at the first `'#'`, the query at the first `'?'`
before it, the host ends at the first `'/'`; scheme and host are lowercased;
an empty path becomes `/`. -/
def parseChars (l : Chars) : Option URLModel :=
  match schemeSplit l with
  | none => none
  | some (scheme, rest) =>
    let h := splitAtChar '#' rest
    let q := splitAtChar '?' h.1
    let a := splitAtChar '/' q.1
    if a.1 = [] ∨ a.1.any forbiddenHostChar then none
    else
      some { scheme := scheme.map Char.toLower
             host := a.1.map Char.toLower
             path := match a.2 with
                     | none => ['/']
                     | some p => '/' :: p
             query := q.2
             fragment := h.2 }

/-- Model of `new URL(s)` on a `String`. -/
def parseURL (s : String) : Option URLModel :=
  parseChars s.data

/-- Model of `URL.prototype.toString` (serialisation). -/
def urlToChars (u : URLModel) : Chars :=
  u.scheme ++ [':', '/', '/'] ++ u.host ++ u.path ++
  (match u.query with | none => [] | some q => '?' :: q) ++
  (match u.fragment with | none => [] | some f => '#' :: f)

/-- `URL.prototype.toString` as a `String`. -/
def urlToString (u : URLModel) : String :=
  ⟨urlToChars u⟩

/-! ## URL canonicalizer (`src/App.tsx`) -/

/-- `ensureHttpUrl` (App.tsx:38): trim, and prefix `https://` when no
`scheme://` is present. -/
def ensureHttpUrl (candidate : String) : String :=
  let trimmed := jsTrim candidate
  if trimmed = "" then trimmed
  else if (schemeSplit trimmed.data).isSome then trimmed
  else "https://" ++ trimmed

/-- Tracking parameter names (lowercased name starts with `utm_` or is one of
the fixed ids), as tested in `getDedupKey` (App.tsx:54-62). -/
def trackingParamName (k : Chars) : Bool :=
  let key := k.map Char.toLower
  "utm_".data.isPrefixOf key ∨ key = "gclid".data ∨ key = "fbclid".data ∨
  key = "igshid".data ∨ key = "mc_cid".data ∨ key = "mc_eid".data

/-- `URLSearchParams` parsing of a raw query: split on `'&'`, drop empty
segments, split each segment at the first `'='` (missing value = empty). -/
def parseParams (q : Chars) : List (Chars × Chars) :=
  ((splitChar '&' q).filter (· ≠ [])).map fun seg =>
    let p := splitAtChar '=' seg
    (p.1, p.2.getD [])

/-- `URLSearchParams` serialisation: `name=value` pairs joined with `'&'`
(percent-encoding not modelled; inputs of interest need none). -/
def serializeParams (ps : List (Chars × Chars)) : Chars :=
  joinChar '&' (ps.map fun p => p.1 ++ '=' :: p.2)

/-- The query after the tracking-parameter `delete` loop of `getDedupKey`
(App.tsx:52-66).  When nothing is deleted the raw query is untouched; when
something is deleted the `URLSearchParams` update re-serialises the remaining
parameters (and an emptied list clears the query). -/
def removeTracking (q : Option Chars) : Option Chars :=
  match q with
  | none => none
  | some qs =>
    let ps := parseParams qs
    if ps.any (fun p => trackingParamName p.1) then
      match ps.filter (fun p => ¬ trackingParamName p.1) with
      | [] => none
      | remaining => some (serializeParams remaining)
    else some qs

/-- `pathname.replace(/\/+$/, "")`: strip all trailing slashes. -/
def stripTrailSlashes (p : Chars) : Chars :=
  (p.reverse.dropWhile (· = '/')).reverse

/-- The dedup key of an already-parsed URL: the computation of
`getDedupKey` after `new URL` succeeded (App.tsx:48-73): clear the fragment,
delete tracking query parameters, collapse trailing slashes of the path
(empty path becomes `/`), and concatenate lowercased host + path + search. -/
def dedupKeyOfURL (u : URLModel) : Chars :=
  let q := removeTracking u.query
  let path :=
    let p := stripTrailSlashes u.path
    if p = [] then ['/'] else p
  let search : Chars :=
    match q with
    | none => []
    | some [] => []
    | some qs => '?' :: qs
  u.host.map Char.toLower ++ path ++ search

/-- `getDedupKey` (App.tsx:45-77).  On parse failure it falls back to the
trimmed, lowercased raw string. -/
def getDedupKey (rawUrl : String) : String :=
  let url := ensureHttpUrl rawUrl
  match parseURL url with
  | some u => ⟨dedupKeyOfURL u⟩
  | none => jsToLower (jsTrim rawUrl)

/-! ## URL validation (`validateUrl`, App.tsx:558-591) -/

/-- Result of `validateUrl`: either a human-readable rejection or the
normalized URL (`{error: null, normalized}`). -/
inductive ValidationResult where
  | rejected (msg : String)
  | ok (normalized : String)
deriving DecidableEq, Repr

/-- The four strings `htt[p]?s?` can match, in the greedy backtracking order
of the JS regex engine. -/
def schemeVariants : List Chars :=
  ["https".data, "http".data, "htts".data, "htt".data]

/-- `normalized.replace(/^htt[p]?s?:\/([^\/])/, "https://$1")`
(App.tsx:579): repair a single slash after a protocol typo. -/
def fixTypo1 (l : Chars) : Chars :=
  match schemeVariants.findSome? (fun v =>
    if v.isPrefixOf l ∧ (l.drop v.length).take 2 = [':', '/'] ∧
       (l.drop (v.length + 2)).head?.any (fun c => c != '/') then
      some ("https://".data ++ l.drop (v.length + 2))
    else none) with
  | some r => r
  | none => l

/-- `normalized.replace(/^htt[p]?s?:\/\/+/, "https://")` (App.tsx:580):
collapse protocol typos and repeated slashes to a single `https://`. -/
def fixTypo2 (l : Chars) : Chars :=
  match schemeVariants.findSome? (fun v =>
    if v.isPrefixOf l ∧ (l.drop v.length).head? = some ':' then
      let afterColon := l.drop (v.length + 1)
      let slashes := afterColon.takeWhile (· = '/')
      if slashes.length ≥ 2 then
        some ("https://".data ++ afterColon.drop slashes.length)
      else none
    else none) with
  | some r => r
  | none => l

/-- `validateUrl` (App.tsx:558-591). -/
def validateUrl (url : String) : ValidationResult :=
  let trimmed := jsTrim url
  if trimmed = "" then .rejected "Por favor, ingresa una dirección web."
  else if trimmed.data.any Char.isWhitespace then
    .rejected "La URL no puede contener espacios en blanco."
  else if ¬ trimmed.data.contains '.' then
    .rejected "Parece que falta la extensión del dominio (ej: .com, .es)."
  else
    let n0 := if (schemeSplit trimmed.data).isSome then trimmed.data
              else "https://".data ++ trimmed.data
    match parseChars (fixTypo2 (fixTypo1 n0)) with
    | some u =>
      if u.host.length < 3 ∨ ¬ u.host.contains '.' then
        .rejected "El nombre de dominio está incompleto."
      else .ok (urlToString u)
    | none => .rejected "La estructura del enlace es inválida."

/-! ## Bookmark records (`src/types.ts`) -/

/-- `priority` values. -/
inductive Priority where
  | low | medium | high
deriving DecidableEq, Repr

/-- `checkStatus` values. -/
inductive CheckStatus where
  | unknown | ok | broken
deriving DecidableEq, Repr

/-- `LinkItem` (types.ts).  TypeScript optional fields (`favorite?` …) are
`Option`s; `undefined` is `none`.  JS numbers holding timestamps/counters are
modelled as `Int`. -/
structure LinkItem where
  id : String
  url : String
  title : String
  image : String
  domain : String
  timestamp : Int
  tags : List String
  favorite : Option Bool
  archived : Option Bool
  notes : Option String
  openCount : Option Int
  lastOpenedAt : Option Int
  rating : Option Int
  priority : Option Priority
  checkStatus : Option CheckStatus
  lastCheckedAt : Option Int
deriving DecidableEq, Repr

/-! ## Duplicate merge engine (`mergeTwoLinks` / `mergeDuplicates`, App.tsx) -/

/-- `statusRank` (App.tsx:96-97): `broken` > `ok` > anything else. -/
def statusRank : Option CheckStatus → Nat
  | some .broken => 2
  | some .ok => 1
  | _ => 0

/-- `prioOrder` (App.tsx:107): `high` > `medium` > `low`. -/
def prioOrder : Priority → Nat
  | .low => 0
  | .medium => 1
  | .high => 2

/-- `mergeTwoLinks` (App.tsx:79-132): field-wise merge of accumulator `a`
with next duplicate `b`; `a`'s identity fields (`id`, `url`, `domain`,
`timestamp`) are kept.  JS truthiness of `x || y` on strings/numbers is
spelled out (`""` and `0` are falsy). -/
def mergeTwoLinks (a b : LinkItem) : LinkItem :=
  let mergedTags := dedupKeepFirst (a.tags ++ b.tags)
  let aNotes := jsTrim (a.notes.getD "")
  let bNotes := jsTrim (b.notes.getD "")
  let mergedNotes :=
    if aNotes ≠ "" ∧ bNotes ≠ "" ∧ aNotes ≠ bNotes then
      aNotes ++ "\n\n---\n\n" ++ bNotes
    else if aNotes ≠ "" then aNotes else bNotes
  let aCount := a.openCount.getD 0
  let bCount := b.openCount.getD 0
  let lastOpenedAt :=
    let m := max (a.lastOpenedAt.getD 0) (b.lastOpenedAt.getD 0)
    if m = 0 then none else some m
  let checkStatus :=
    if statusRank a.checkStatus ≥ statusRank b.checkStatus then a.checkStatus
    else b.checkStatus
  let lastCheckedAt :=
    let m := max (a.lastCheckedAt.getD 0) (b.lastCheckedAt.getD 0)
    if m = 0 then none else some m
  -- the JS `|| 0` after `Math.max` is the identity on integers
  let rating := max (a.rating.getD 0) (b.rating.getD 0)
  let aPrio := a.priority.getD .medium
  let bPrio := b.priority.getD .medium
  let priority := if prioOrder aPrio ≥ prioOrder bPrio then aPrio else bPrio
  let aTitle := jsTrim a.title
  let bTitle := jsTrim b.title
  let title := if bTitle.length > aTitle.length then b.title else a.title
  let image := if a.image ≠ "" then a.image else b.image
  { a with
    title := title
    image := image
    tags := mergedTags
    notes := some mergedNotes
    favorite := some (a.favorite.getD false || b.favorite.getD false)
    archived := some (a.archived.getD false && b.archived.getD false)
    openCount := some (aCount + bCount)
    lastOpenedAt := lastOpenedAt
    checkStatus := some ((checkStatus).getD .unknown)
    lastCheckedAt := lastCheckedAt
    rating := some rating
    priority := some priority }

/-- Result of `mergeDuplicates`. -/
structure MergeResult where
  merged : List LinkItem
  removed : Nat
deriving DecidableEq, Repr

/-- JS `Map.get` on an insertion-ordered association list. -/
def mapGet : List (String × LinkItem) → String → Option LinkItem
  | [], _ => none
  | (k', v) :: rest, k => if k' = k then some v else mapGet rest k

/-- JS `Map.set` on an insertion-ordered association list: replaces in place
or appends. -/
def mapSet : List (String × LinkItem) → String → LinkItem → List (String × LinkItem)
  | [], k, v => [(k, v)]
  | (k', v') :: rest, k, v =>
    if k' = k then (k, v) :: rest else (k', v') :: mapSet rest k v

/-- One iteration of the `for (const link of sorted)` loop of
`mergeDuplicates` (App.tsx:141-150), accumulating the `byKey` map and the
`removed` counter. -/
def mergeStep (acc : List (String × LinkItem) × Nat) (link : LinkItem) :
    List (String × LinkItem) × Nat :=
  let key := getDedupKey link.url
  match mapGet acc.1 key with
  | none => (mapSet acc.1 key link, acc.2)
  | some existing => (mapSet acc.1 key (mergeTwoLinks existing link), acc.2 + 1)

/-- The comparator `(x, y) => (y.timestamp || 0) - (x.timestamp || 0)`
(App.tsx:135-137) as a `≤`-test: `x` may stay before `y` iff
`x.timestamp ≥ y.timestamp` (the `|| 0` is the identity on integers). -/
def byTimestampDesc (x y : LinkItem) : Bool :=
  y.timestamp ≤ x.timestamp

/-- `mergeDuplicates` (App.tsx:134-153): stable-sort by descending
`timestamp` (JS `sort` is stable, as is `List.mergeSort`), fold into a
key-indexed map, output the map's values in insertion order. -/
def mergeDuplicates (items : List LinkItem) : MergeResult :=
  let sorted := items.mergeSort byTimestampDesc
  let res := sorted.foldl mergeStep ([], 0)
  { merged := res.1.map (·.2), removed := res.2 }

/-! ## Import normalisation (`normalizeImportedLink`, App.tsx:167-275) -/

/-- The built-in fallback image (App.tsx:13). -/
def FALLBACK_IMAGE : String :=
  "https://images.unsplash.com/photo-1618005182384-a83a8bd57fbe?q=80&w=1000&auto=format&fit=crop"

/-- `parseTagsInput` (App.tsx:31-36): split on runs of spaces/commas, trim,
lowercase, drop empties. -/
def parseTagsInput (value : String) : List String :=
  (((splitChar ' ' value.data).map String.mk).foldr
      (fun w acc => (splitChar ',' w.data).map String.mk ++ acc) []
    |>.map (fun t => jsToLower (jsTrim t))).filter (fun t => t ≠ "")

/-- A JS value in a `raw.tags` position: an array (whose elements may or may
not be strings), a string, or anything else. -/
inductive RawTags where
  | arr (xs : List (Option String))
  | str (s : String)
  | other
deriving DecidableEq, Repr

/-- An arbitrary imported JS object, as observed by `normalizeImportedLink`:
for each field, `some x` means the field holds a value of the type the code
tests for (`typeof` checks), `none` means it is absent or of another type.
Number fields are modelled as integers (non-finite numbers are `none`,
matching the `Number.isFinite` guards; non-integral numbers behave like any
out-of-range value in the subsequent checks). -/
structure RawLink where
  url : Option String
  title : Option String
  tags : RawTags
  image : Option String
  timestamp : Option Int
  favorite : Option Bool
  archived : Option Bool
  notes : Option String
  rating : Option Int
  priority : Option String
  openCount : Option Int
  lastOpenedAt : Option Int
  checkStatus : Option String
  lastCheckedAt : Option Int
  id : Option String
deriving DecidableEq, Repr

/-- Remove the first occurrence of `pat` from `l`
(JS `String.prototype.replace` with a string pattern and empty replacement). -/
def removeFirstSub (pat : Chars) : Chars → Chars
  | [] => []
  | x :: xs =>
    if pat.isPrefixOf (x :: xs) then (x :: xs).drop pat.length
    else x :: removeFirstSub pat xs

/-- `getDomain` (metadataService.ts:386-397): second-level label of the
hostname (after dropping the first `"www."` occurrence), uppercased; `LINK`
when parsing fails. -/
def getDomain (url : String) : String :=
  match parseURL (if strStarts url "http" then url else "https://" ++ url) with
  | none => "LINK"
  | some u =>
    let parts := (splitChar '.' (removeFirstSub "www.".data u.host)).map String.mk
    let label := if parts.length > 1 then parts.getD (parts.length - 2) ""
                 else parts.getD 0 ""
    jsToUpper label

/-- `normalizeImportedLink` (App.tsx:167-275).  The input is `none` when the
raw value is not an object (first guard).  `freshId` injects the
`generateId()` result and `now` the `Date.now()` default timestamp (both are
nondeterministic in JS). -/
def normalizeImportedLink (freshId : String) (now : Int) :
    Option RawLink → Option LinkItem
  | none => none
  | some raw =>
    match raw.url with
    | none => none
    | some rawUrl =>
      if jsTrim rawUrl = "" then none
      else
        match parseURL (ensureHttpUrl (jsTrim rawUrl)) with
        | none => none
        | some urlObj =>
          let title :=
            match raw.title with
            | some t => if jsTrim t ≠ "" then jsTrim t else "Enlace Guardado"
            | none => "Enlace Guardado"
          let tags :=
            match raw.tags with
            | .arr xs =>
              ((xs.filterMap id).map (fun t => jsToLower (jsTrim t))).filter (· ≠ "")
            | .str s => parseTagsInput s
            | .other => []
          let imageCandidate := jsTrim (raw.image.getD "")
          let looksLikeFavicon := strIncludes imageCandidate "google.com/s2/favicons"
          let imageStep := if ¬ looksLikeFavicon ∧ imageCandidate ≠ "" then imageCandidate else ""
          let image := if imageStep = "" then FALLBACK_IMAGE else imageStep
          let timestamp := raw.timestamp.getD now
          let rating :=
            let r := raw.rating.getD 0
            if r = 0 ∨ r = 1 ∨ r = 2 ∨ r = 3 ∨ r = 4 ∨ r = 5 then r else 0
          let priority :=
            match raw.priority.getD "medium" with
            | "low" => Priority.low
            | "medium" => Priority.medium
            | "high" => Priority.high
            | _ => Priority.medium
          let checkStatus :=
            match raw.checkStatus.getD "unknown" with
            | "ok" => CheckStatus.ok
            | "broken" => CheckStatus.broken
            | _ => CheckStatus.unknown
          some
            { id := match raw.id with
                    | some i => if jsTrim i ≠ "" then i else freshId
                    | none => freshId
              url := urlToString urlObj
              title := title
              image := image
              domain := getDomain (urlToString urlObj)
              timestamp := timestamp
              tags := tags
              favorite := some (raw.favorite.getD false)
              archived := some (raw.archived.getD false)
              notes := some (raw.notes.getD "")
              rating := some rating
              priority := some priority
              openCount := some (raw.openCount.getD 0)
              lastOpenedAt := raw.lastOpenedAt
              checkStatus := some checkStatus
              lastCheckedAt := raw.lastCheckedAt }

/-! ## Add-bookmark flow (`agregarEnlace`, App.tsx:634-690) -/

/-- Outcome of the guard section of `agregarEnlace`: a validation rejection,
a duplicate rejection (collection left unchanged), or acceptance of the
normalized URL (the record is then created from fetched metadata). -/
inductive AddOutcome where
  | invalid (msg : String)
  | duplicate
  | accepted (finalUrl : String)
deriving DecidableEq, Repr

/-- The decision logic of `agregarEnlace` (App.tsx:634-648): validate, then
reject as duplicate iff an existing record's `url` equals the normalized URL
case-insensitively. -/
def agregarEnlaceOutcome (links : List LinkItem) (inputValue : String) : AddOutcome :=
  match validateUrl inputValue with
  | .rejected msg => .invalid msg
  | .ok finalUrl =>
    if links.any (fun l => jsToLower l.url = jsToLower finalUrl) then .duplicate
    else .accepted finalUrl

/-! ## Image candidate scorer (`src/services/metadataService.ts`) -/

/-- Decimal digits prefix value. -/
def natOfDigits (ds : Chars) : Nat :=
  ds.foldl (fun n c => n * 10 + (c.toNat - '0'.toNat)) 0

/-- The regex fragment `(\.)(e₁|e₂|…)(\?|$)`: some extension of `exts`
preceded by a dot and followed by `'?'` or the end of the string. -/
def extMatch (exts : List String) (lower : Chars) : Bool :=
  exts.any (fun e =>
    containsSub ('.' :: e.data ++ ['?']) lower ∨ ('.' :: e.data).isSuffixOf lower)

/-- `isLikelyImageUrl` (metadataService.ts:4-14). -/
def isLikelyImageUrl : Option String → Bool
  | none => false
  | some c =>
    if c = "" then false
    else
      let lower := (splitAtChar '#' c.data).1.map Char.toLower
      if "data:image/".data.isPrefixOf lower then true
      else if "blob:".data.isPrefixOf lower then true
      else if containsSub "google.com/s2/favicons".data lower then false
      else if containsSub "/favicon".data lower ∨ containsSub "favicon=".data lower then false
      else if extMatch ["ico"] lower then false
      else extMatch ["png", "jpg", "jpeg", "gif", "webp", "avif", "svg"] lower

/-- Size hint parsed from a `-WxH.ext` filename suffix. -/
structure SizeHint where
  w : Nat
  h : Nat
  area : Nat
deriving DecidableEq, Repr

/-- The lookahead `(?=\.(png|jpe?g|webp|avif|gif|svg)(\?|$))`. -/
def sizeExtLookahead (tail : Chars) : Bool :=
  match tail with
  | '.' :: t =>
    ["png", "jpg", "jpeg", "webp", "avif", "gif", "svg"].any (fun e =>
      e.data.isPrefixOf t &&
      (match t.drop e.length with
       | [] => true
       | c :: _ => c == '?'))
  | _ => false

/-- One attempt of the size regex `[-_](\d{2,4})x(\d{2,4})(?=\.ext(\?|$))` at
the current position (the position must hold the `[-_]` separator; the digit
runs must be 2–4 long and immediately delimited, which is what the regex
backtracking amounts to). -/
def sizeMatchAt : Chars → Option SizeHint
  | [] => none
  | sep :: rest =>
    if sep = '-' ∨ sep = '_' then
      let d1 := rest.takeWhile Char.isDigit
      if 2 ≤ d1.length ∧ d1.length ≤ 4 then
        match rest.drop d1.length with
        | 'x' :: rest2 =>
          let d2 := rest2.takeWhile Char.isDigit
          if 2 ≤ d2.length ∧ d2.length ≤ 4 ∧ sizeExtLookahead (rest2.drop d2.length) then
            some ⟨natOfDigits d1, natOfDigits d2, natOfDigits d1 * natOfDigits d2⟩
          else none
        | _ => none
      else none
    else none

/-- Left-to-right scan for the first size match. -/
def sizeScan : Chars → Option SizeHint
  | [] => none
  | c :: rest =>
    match sizeMatchAt (c :: rest) with
    | some r => some r
    | none => sizeScan rest

/-- `parseSizeFromUrl` (metadataService.ts:16-26). -/
def parseSizeFromUrl (u : String) : Option SizeHint :=
  sizeScan ((splitAtChar '#' u.data).1.map Char.toLower)

/-- Occurrence of one of `mids` bounded on the left by the string start or a
character of `pres` and on the right by the string end or a character of
`posts` (the regex shape `(^|[pres])mid([posts]|$)`); `prev` is the
character preceding the current position. -/
def boundedOccurGo (pres posts : List Char) (mids : List Chars) :
    Option Char → Chars → Bool
  | prev, l =>
    let prevOk := match prev with
      | none => true
      | some p => pres.contains p
    let here := prevOk && mids.any (fun m =>
      m.isPrefixOf l &&
      (match l.drop m.length with
       | [] => true
       | c :: _ => posts.contains c))
    match l with
    | [] => here
    | c :: rest => here || boundedOccurGo pres posts mids (some c) rest

/-- Entry point for `boundedOccurGo` at the string start. -/
def boundedOccur (pres posts : List Char) (mids : List Chars) (l : Chars) : Bool :=
  boundedOccurGo pres posts mids none l

/-- The icon side lengths of the pattern
`[-_](16|24|32|48|64|96|128|150|180|192|256)x\1(?=\.)`. -/
def iconSizes : List Nat := [16, 24, 32, 48, 64, 96, 128, 150, 180, 192, 256]

/-- `sep ++ a ++ "x" ++ b ++ "."` — the text of a fixed-size pattern match. -/
def sizePatternChars (sep : Char) (a b : Nat) : Chars :=
  sep :: (toString a).data ++ 'x' :: (toString b).data ++ ['.']

/-- `looksLikeLogoish` (metadataService.ts:65-80). -/
def looksLikeLogoish (u : String) : Bool :=
  let lower := (splitAtChar '#' u.data).1.map Char.toLower
  containsSub "site-logo".data lower ∨
  containsSub "custom-logo".data lower ∨
  containsSub "header-logo".data lower ∨
  containsSub "brand".data lower ∨
  containsSub "icon".data lower ∨
  containsSub "avatar".data lower ∨
  containsSub "gravatar".data lower ∨
  containsSub "sprite".data lower ∨
  containsSub "favicon".data lower ∨
  iconSizes.any (fun n => ['-', '_'].any (fun sep =>
    containsSub (sizePatternChars sep n n) lower)) ∨
  ([150, 300].any (fun a => [150, 300].any (fun b => ['-', '_'].any (fun sep =>
    containsSub (sizePatternChars sep a b) lower))))

/-- `scoreImageUrl` (metadataService.ts:82-130), as the JS score multiplied
by 100000 (the denominator of the only fractional term, `sz.area / 100000`),
so that every value is an integer: `min(12, area/100000)` becomes
`min 1200000 area`, and the aspect-ratio tests `w/h ≥ 4`, `w/h ≤ 0.25`,
`w/h ≥ 3`, `w/h ≤ 0.33` are cross-multiplied (`h > 0` always holds: the size
regex requires at least two digits).  The scaled integer model agrees with
the JS double-precision computation at every comparison the code performs:
for `w, h ≤ 9999` the distance of `w/h` to any decision boundary is at least
`1/9999`, far above double rounding error. -/
def scoreImageUrl (u : String) : Int :=
  let lower := (splitAtChar '#' u.data).1.map Char.toLower
  let uploads : Int := if containsSub "/wp-content/uploads/".data lower then 600000 else 0
  let themes : Int :=
    if containsSub "/wp-content/themes/".data lower ∨
       containsSub "/wp-content/plugins/".data lower then -400000 else 0
  let ext : Int :=
    if extMatch ["jpg", "jpeg"] lower then 600000
    else if extMatch ["webp", "avif"] lower then 500000
    else if extMatch ["png"] lower then 200000
    else if extMatch ["gif", "svg"] lower then 100000
    else 0
  let main : Int :=
    if boundedOccur ['/', '_', '-'] ['.', '_', '-']
        ["img_main".data, "img-main".data, "imgmain".data] lower then 1000000 else 0
  let featured : Int :=
    if boundedOccur ['/', '_', '-'] ['.', '_', '-']
        ["featured".data, "hero".data, "cover".data] lower then 400000 else 0
  let banner : Int :=
    if boundedOccur ['/', '_', '-'] ['.', '_', '-']
        ["banner".data, "header".data] lower then -600000 else 0
  let size : Int :=
    match parseSizeFromUrl ⟨lower⟩ with
    | some sz =>
      let base : Int := min 1200000 (sz.area : Int)
      let big : Int := if sz.w ≥ 900 ∨ sz.h ≥ 600 then 200000 else 0
      let aspect : Int :=
        if sz.w ≥ 4 * sz.h ∨ 4 * sz.w ≤ sz.h then -1000000
        else if sz.w ≥ 3 * sz.h ∨ 100 * sz.w ≤ 33 * sz.h then -600000
        else 0
      let thumb : Int :=
        if sz.w < 500 ∨ sz.h < 300 then -600000
        else if sz.w < 800 then -200000
        else 0
      base + big + aspect + thumb
    | none => -100000
  let logoish : Int := if looksLikeLogoish ⟨lower⟩ then -800000 else 0
  let favsvc : Int := if containsSub "google.com/s2/favicons".data lower then -5000000 else 0
  let favpath : Int :=
    if containsSub "/favicon".data lower ∨ extMatch ["ico"] lower then -5000000 else 0
  uploads + themes + ext + main + featured + banner + size + logoish + favsvc + favpath

/-! ## Candidate resolution against the page URL -/

/-- `b.path` truncated after its last `'/'` (the directory a relative
reference is resolved in). -/
def dirOf (p : Chars) : Chars :=
  (p.reverse.dropWhile (· ≠ '/')).reverse

/-- Model of `new URL(raw, base)` (WHATWG relative resolution, restricted as
`parseChars` is; dot-segments are not normalised — no input of interest has
any).  `none` models the constructor throwing. -/
def resolveChars (base raw : Chars) : Option Chars :=
  match schemeSplit raw with
  | some _ => (parseChars raw).map urlToChars
  | none =>
    match parseChars base with
    | none => none
    | some b =>
      if raw.take 2 = ['/', '/'] then
        (parseChars (b.scheme ++ ':' :: raw)).map urlToChars
      else
        let h := splitAtChar '#' raw
        let q := splitAtChar '?' h.1
        match raw with
        | [] => some (urlToChars { b with fragment := none })
        | '/' :: _ => some (urlToChars { b with path := q.1, query := q.2, fragment := h.2 })
        | '?' :: _ => some (urlToChars { b with query := q.2, fragment := h.2 })
        | '#' :: frag => some (urlToChars { b with fragment := some frag })
        | _ => some (urlToChars { b with path := dirOf b.path ++ q.1, query := q.2, fragment := h.2 })

/-- `resolveCandidateUrl` (metadataService.ts:28-38). -/
def resolveCandidateUrl (baseUrl candidate : String) : String :=
  let raw := jsTrim candidate
  if raw = "" then ""
  else
    let lower := raw.data.map Char.toLower
    if "data:image/".data.isPrefixOf lower ∨ "blob:".data.isPrefixOf lower then raw
    else
      match resolveChars baseUrl.data raw.data with
      | some r => ⟨r⟩
      | none => raw

/-- `isAllowedImageHost` (metadataService.ts:40-63). -/
def isAllowedImageHost (pageUrl imageUrl : String) : Bool :=
  match parseURL pageUrl, parseURL imageUrl with
  | some page, some img =>
    let pageHost := page.host.map Char.toLower
    let imgHost := img.host.map Char.toLower
    imgHost = pageHost ∨ ('.' :: pageHost).isSuffixOf imgHost ∨
    imgHost = "i0.wp.com".data ∨ imgHost = "i1.wp.com".data ∨ imgHost = "i2.wp.com".data
  | _, _ => false

/-- The hostname `new URL(s)` (absolute, no base) would report, for the
same-site re-check of `pickBestImage`: `scheme://`-URLs via the main parser,
other `scheme:` URLs (e.g. `data:`) have an empty hostname, anything else
throws (`none`). -/
def looseHost (s : Chars) : Option Chars :=
  match parseChars s with
  | some u => some u.host
  | none =>
    let pre := s.takeWhile Char.isAlpha
    if pre ≠ [] ∧ (s.drop pre.length).head? = some ':' ∧
       (s.drop pre.length).take 3 ≠ [':', '/', '/'] then some []
    else none

/-- The `resolved → uniq → filtered` pipeline of `pickBestImage`
(metadataService.ts:137-146): resolve each candidate, deduplicate, keep
likely images, apply the host policy. -/
def survivingCandidates (pageUrl : String) (candidates : List String)
    (allowExternalHosts : Bool) : List String :=
  let resolved := (candidates.map (resolveCandidateUrl pageUrl)).filter (· ≠ "")
  let uniq := dedupKeepFirst resolved
  (uniq.filter (fun u => isLikelyImageUrl (some u))).filter (fun u =>
    if ¬ strStarts u "http" then true
    else if allowExternalHosts then true
    else isAllowedImageHost pageUrl u)

/-- The maximum-scoring scan of `pickBestImage` (metadataService.ts:149-158):
strictly greater scores win, so the first of equally-scored candidates is
kept. -/
def pickBestLoop : List String → String → Int → String × Int
  | [], best, bestScore => (best, bestScore)
  | c :: rest, best, bestScore =>
    let s := scoreImageUrl c
    if s > bestScore then pickBestLoop rest c s
    else pickBestLoop rest best bestScore

/-- `pickBestImage` (metadataService.ts:132-179).  `opts` is the
`allowExternalHosts` flag (absent = `false`). -/
def pickBestImage (pageUrl : String) (candidates : List String)
    (allowExternalHosts : Bool) : Option String :=
  match survivingCandidates pageUrl candidates allowExternalHosts with
  | [] => none
  | first :: rest =>
    let bb := pickBestLoop rest first (scoreImageUrl first)
    if bb.2 < 200000 then none
    else if allowExternalHosts then
      match looseHost bb.1.data, parseURL pageUrl with
      | some bestHost, some page =>
        let pageHost := page.host.map Char.toLower
        let sameSite := bestHost.map Char.toLower = pageHost ∨
          ('.' :: pageHost).isSuffixOf (bestHost.map Char.toLower)
        if ¬ sameSite ∧ bb.2 < 600000 then none else some bb.1
      | _, _ => some bb.1
    else some bb.1

/-! ## srcset, Markdown and HTML extraction -/

/-- One srcset entry against `^(\S+)\s+(\d+)w$`. -/
def srcsetEntry (p : Chars) : Option (Chars × Nat) :=
  let u := p.takeWhile (fun c => ¬ c.isWhitespace)
  if u = [] then none
  else
    let rest := p.drop u.length
    let ws := rest.takeWhile Char.isWhitespace
    if ws = [] then none
    else
      let digits := (rest.drop ws.length).takeWhile Char.isDigit
      if digits = [] then none
      else if rest.drop (ws.length + digits.length) = ['w'] then
        some (u, natOfDigits digits)
      else none

/-- `parseSrcsetLargest` (metadataService.ts:181-203). -/
def parseSrcsetLargest (srcset : Option String) : Option String :=
  match srcset with
  | none => none
  | some s =>
    let parts := (((splitChar ',' s.data).map (fun p => jsTrim (String.mk p))).filter (· ≠ ""))
    (parts.foldl (fun acc p =>
      match srcsetEntry p.data with
      | none => acc
      | some (u, w) => if (w : Int) > acc.2 then (some (String.mk u), (w : Int)) else acc)
      ((none : Option String), (-1 : Int))).1

/-- The `https?:\/\/` prefix (case-sensitive, greedy `s?`). -/
def matchHttpScheme (l : Chars) : Option (Chars × Chars) :=
  if "https://".data.isPrefixOf l then some ("https://".data, l.drop 8)
  else if "http://".data.isPrefixOf l then some ("http://".data, l.drop 7)
  else none

/-- Lazy `.*?\)`: capture up to the first `')'` with no intervening newline
(`.` does not match `'\n'`). -/
def untilCloseParen : Chars → Option (Chars × Chars)
  | [] => none
  | c :: rest =>
    if c = ')' then some ([], rest)
    else if c = '\n' then none
    else
      match untilCloseParen rest with
      | some (cap, r) => some (c :: cap, r)
      | none => none

/-- After `![`, the lazy-with-backtracking rest of
`!\[.*?\]\((https?:\/\/.*?)\)`: try each `']'` in turn (never across a
newline); on success return the captured URL and the remainder after the
match. -/
def mdAfterBang : Chars → Option (Chars × Chars)
  | [] => none
  | c :: rest =>
    if c = '\n' then none
    else if c = ']' then
      match rest with
      | '(' :: r2 =>
        (match matchHttpScheme r2 with
         | some (scheme, r3) =>
           match untilCloseParen r3 with
           | some (cap, r4) => some (scheme ++ cap, r4)
           | none => mdAfterBang rest
         | none => mdAfterBang rest)
      | _ => mdAfterBang rest
    else mdAfterBang rest

/-- `matchAll(/!\[.*?\]\((https?:\/\/.*?)\)/g)` capture groups, left to
right, non-overlapping (fuel-bounded; `String.length` fuel suffices since
every step consumes at least one character). -/
def mdImagesGo : Nat → Chars → List String
  | 0, _ => []
  | _, [] => []
  | fuel + 1, '!' :: '[' :: rest =>
    (match mdAfterBang rest with
     | some (url, r) => String.mk url :: mdImagesGo fuel r
     | none => mdImagesGo fuel ('[' :: rest))
  | fuel + 1, _ :: xs => mdImagesGo fuel xs

/-- All Markdown image URLs of the content. -/
def mdImages (s : String) : List String :=
  mdImagesGo s.data.length s.data

/-- Lazy `.*?\.(?:png|jpg|jpeg|gif|webp|svg)` with the `/i` flag: capture
(original case) up to the first case-insensitive `.ext`, never across a
newline. -/
def rawImageTail : Chars → Option Chars
  | [] => none
  | c :: rest =>
    if c = '\n' then none
    else
      match (if c = '.' then
               ["png", "jpg", "jpeg", "gif", "webp", "svg"].findSome? (fun e =>
                 if e.data.isPrefixOf (rest.map Char.toLower) then
                   some ('.' :: rest.take e.length)
                 else none)
             else none) with
      | some cap => some cap
      | none =>
        match rawImageTail rest with
        | some cap => some (c :: cap)
        | none => none

/-- One attempt of `/(https?:\/\/.*?\.(?:png|jpg|jpeg|gif|webp|svg))/i` at
the current position. -/
def rawImageAt (l : Chars) : Option String :=
  if "https://".data.isPrefixOf (l.map Char.toLower) then
    (rawImageTail (l.drop 8)).map (fun cap => String.mk (l.take 8 ++ cap))
  else if "http://".data.isPrefixOf (l.map Char.toLower) then
    (rawImageTail (l.drop 7)).map (fun cap => String.mk (l.take 7 ++ cap))
  else none

/-- First match of the raw image-URL regex, scanning left to right. -/
def rawImageScan : Chars → Option String
  | [] => none
  | c :: rest =>
    match rawImageAt (c :: rest) with
    | some u => some u
    | none => rawImageScan rest

/-- `html.match(/(https?:\/\/.*?\.(?:png|jpg|jpeg|gif|webp|svg))/i)`. -/
def rawImage (s : String) : Option String :=
  rawImageScan s.data

/-- `^Title:` at the current position (a line start): the captured group of
`/^Title:\s*(.*)$/m` — `\s*` greedily skips whitespace (newlines included),
`(.*)` then runs to the end of that line — followed by the `.trim()` the
caller applies. -/
def titleAtLineStart (l : Chars) : Option String :=
  if "Title:".data.isPrefixOf l then
    let v := ((l.drop 6).dropWhile Char.isWhitespace).takeWhile (· ≠ '\n')
    some (jsTrim (String.mk v))
  else none

/-- Scan for a `Title:` match at a line start strictly after the current
position: at every `'\n'`, test the following line
(the `/m` flag anchors `^` at every line start). -/
def titleScanTail : Chars → Option String
  | [] => none
  | c :: rest =>
    if c = '\n' then
      match titleAtLineStart rest with
      | some t => some t
      | none => titleScanTail rest
    else titleScanTail rest

/-- The Markdown title of `fetchMetadata` (metadataService.ts:260-261),
before the placeholder default: the first line start (position 0 or after a
newline) matching `^Title:\s*(.*)$`. -/
def markdownTitle (s : String) : Option String :=
  match titleAtLineStart s.data with
  | some t => some t
  | none => titleScanTail s.data

/-! ## Metadata resolution pipeline (`fetchMetadata`) -/

/-- Outcome of one proxied `fetch`: `none` models the promise rejecting,
otherwise the `ok` flag and the response text. -/
structure FetchResp where
  ok : Bool
  body : String
deriving DecidableEq, Repr

/-- The result value of `fetchMetadata` (`MetadataResponse` of types.ts;
the `logo` field is never produced). -/
structure MetadataResponse where
  title : String
  image : Option String
  url : String
deriving DecidableEq, Repr

/-- An `<img>` element as observed by the extraction code: the attributes it
reads. -/
structure ImgNode where
  src : Option String
  dataSrc : Option String
  dataLazySrc : Option String
  dataOriginal : Option String
  srcset : Option String

/-- The parsed HTML document as observed by the extraction code (model of
the `DOMParser` result): meta content by name, the `<title>` text, and the
`<img>` elements in document order. -/
structure DocModel where
  metaContent : String → Option String
  titleText : Option String
  imgs : List ImgNode

/-- JS `a || b || …` over nullable strings: first non-empty value. -/
def firstTruthy : List (Option String) → Option String
  | [] => none
  | some s :: rest => if s ≠ "" then some s else firstTruthy rest
  | none :: rest => firstTruthy rest

/-- `getMeta` (metadataService.ts:280-289): first listed name whose meta
content is truthy. -/
def getMeta (doc : DocModel) (names : List String) : Option String :=
  names.findSome? (fun n =>
    match doc.metaContent n with
    | some c => if c ≠ "" then some c else none
    | none => none)

/-- Everything before the first occurrence of `pat` (`split(pat)[0]`). -/
def takeBeforeSub (pat : Chars) : Chars → Chars
  | [] => []
  | x :: xs => if pat.isPrefixOf (x :: xs) then [] else x :: takeBeforeSub pat xs

/-- Attempt 1 (AllOrigins HTML proxy, metadataService.ts:214-234): the
usable body, `""` when the fetch failed, was non-ok, looked like a block
page, or was implausibly short. -/
def attempt1Body (r1 : Option FetchResp) : String :=
  match r1 with
  | none => ""
  | some resp =>
    if resp.ok then
      let html := resp.body
      let forbidden := strIncludes (jsToLower html) "forbidden" ∨
        strIncludes (jsToLower html) "403 forbidden"
      let cloudflare := strIncludes html "cf-browser-verification" ∨
        strIncludes html "cloudflare"
      if forbidden ∨ cloudflare ∨ html.length < 600 then "" else html
    else ""

/-- Title truncation (metadataService.ts:358). -/
def truncateTitle (t : String) : String :=
  if t.length > 150 then String.mk (t.data.take 147) ++ "..." else t

/-- `scheme://host` (JS `URL.origin`, no port in the model). -/
def urlOrigin (u : URLModel) : String :=
  ⟨u.scheme ++ [':', '/', '/'] ++ u.host⟩

/-- The `{title, image}` extraction for Markdown bodies
(metadataService.ts:258-274). -/
def extractFromMarkdown (targetUrl body : String) : String × Option String :=
  let title := (markdownTitle body).getD "Enlace Guardado"
  let imgMatches := mdImages body
  let image :=
    if imgMatches ≠ [] then pickBestImage targetUrl imgMatches false
    else
      match rawImage body with
      | some m => pickBestImage targetUrl [m] false
      | none => none
  (title, image)

/-- The `{title, image}` extraction for HTML bodies
(metadataService.ts:276-334), over the `DocModel` oracle. -/
def extractFromHtml (targetUrl : String) (doc : DocModel) : String × Option String :=
  let t0 :=
    match getMeta doc ["og:title", "twitter:title", "title"] with
    | some c => c
    | none =>
      match doc.titleText with
      | some s => if s ≠ "" then s else "Enlace Guardado"
      | none => "Enlace Guardado"
  let title := jsTrim (String.mk (takeBeforeSub " | ".data (takeBeforeSub " - ".data t0.data)))
  let metaCandidates :=
    match getMeta doc ["og:image", "og:image:url", "og:image:secure_url",
                       "twitter:image", "image", "thumbnailUrl"] with
    | some m => [m]
    | none => []
  let bodyCandidates := (doc.imgs.take 40).foldr (fun img acc =>
    let src := firstTruthy [img.src, img.dataSrc, img.dataLazySrc, img.dataOriginal]
    let srcsetLargest := parseSrcsetLargest img.srcset
    (match src with | some s => [s] | none => []) ++
    (match srcsetLargest with | some s => [s] | none => []) ++ acc) []
  let image :=
    match pickBestImage targetUrl metaCandidates true with
    | some i => some i
    | none => pickBestImage targetUrl bodyCandidates false
  (title, image)

/-- `fetchMetadata` (metadataService.ts:209-362).  `r1`/`r2` are the two
proxied fetch outcomes (attempt 2 is only consulted when attempt 1 yielded
no usable body) and `parseDoc` models `new DOMParser().parseFromString`. -/
def fetchMetadata (url : String) (r1 r2 : Option FetchResp)
    (parseDoc : String → DocModel) : MetadataResponse :=
  let targetUrl := if strStarts url "http" then url else "https://" ++ url
  let a1 := attempt1Body r1
  let hm : String × Bool :=
    if a1 ≠ "" then (a1, false)
    else
      match r2 with
      | some resp => if resp.ok then (resp.body, true) else ("", false)
      | none => ("", false)
  if hm.1 = "" then { title := "Enlace Guardado", image := none, url := targetUrl }
  else
    let extracted :=
      if hm.2 then extractFromMarkdown targetUrl hm.1
      else extractFromHtml targetUrl (parseDoc hm.1)
    let image2 :=
      match extracted.2 with
      | some img =>
        if ¬ strStarts img "http" then
          match parseURL targetUrl with
          | some base =>
            if strStarts img "//" then some (String.mk (base.scheme ++ ':' :: img.data))
            else if strStarts img "/" then some (urlOrigin base ++ img)
            else some (urlOrigin base ++ "/" ++ img)
          | none => none
        else some img
      | none => none
    let image3 :=
      match image2 with
      | some img => if isLikelyImageUrl (some img) then some img else none
      | none => none
    { title := truncateTitle extracted.1, image := image3, url := targetUrl }

/-! ## Concrete sample data -/

/-- A minimal concrete bookmark record for concrete instances. -/
def demoLink (url : String) (ts : Int) : LinkItem :=
  ⟨"id1", url, "title", "img", "DOM", ts, ["t1"],
   none, none, none, none, none, none, none, none, none⟩

/-- A concrete imported value carrying no image field. -/
def demoRawNoImage : RawLink :=
  ⟨some "example.com", none, .other, none, none, none, none, none,
   none, none, none, none, none, none, none⟩

/-- An empty parsed-document oracle (no meta tags, no title, no images). -/
def emptyDoc : DocModel :=
  ⟨fun _ => none, none, []⟩

/-- The record `normalizeImportedLink` produces for `demoRawNoImage`. -/
def demoImported : LinkItem :=
  ⟨"fresh", "https://example.com/", "Enlace Guardado", FALLBACK_IMAGE, "EXAMPLE", 100, [],
   some false, some false, some "", some 0, none, some 0, some .medium, some .unknown, none⟩

/-!
# Theorems

First the helper lemmas about the embedded definitions, then one theorem per
claim (with witnesses and counterexamples where required).
-/

/-- C9: URL validation rejects `"exa mple.com"` (embedded space) and
`"example"` (no dot) with non-null errors, and accepts `"example.com"`,
normalizing it to `"https://example.com/"`. -/
theorem C9_validateUrl_examples :
    validateUrl "exa mple.com" = .rejected "La URL no puede contener espacios en blanco." ∧
    validateUrl "example" = .rejected "Parece que falta la extensión del dominio (ej: .com, .es)." ∧
    validateUrl "example.com" = .ok "https://example.com/" := by
  refine ⟨?_, ?_, ?_⟩ <;> decide

/-- C6: on page `https://site.com/post`, of the candidates `/favicon.ico`
and `/wp-content/uploads/2024/photo-1200x800.jpg` the scorer selects the
uploads photo, resolved against the page URL; the favicon candidate does not
win. -/
theorem C6_uploads_photo_selected :
    pickBestImage "https://site.com/post"
        ["/favicon.ico", "/wp-content/uploads/2024/photo-1200x800.jpg"] false =
      some "https://site.com/wp-content/uploads/2024/photo-1200x800.jpg" ∧
    pickBestImage "https://site.com/post"
        ["/favicon.ico", "/wp-content/uploads/2024/photo-1200x800.jpg"] false ≠
      some "https://site.com/favicon.ico" := by
  refine ⟨?_, ?_⟩ <;> decide

/-- C1 is false as stated: for the collection
`[demoLink "https://example.com/x/" 1]` and the validated input
`"https://example.com/x"` the dedup keys of the existing record and of the
normalized input agree, yet the add flow does not reject the input as a
duplicate (it compares lowercased URLs, not dedup keys). -/
theorem C1_counterexample :
    validateUrl "https://example.com/x" = .ok "https://example.com/x" ∧
    (∃ l ∈ [demoLink "https://example.com/x/" 1],
       getDedupKey l.url = getDedupKey "https://example.com/x") ∧
    agregarEnlaceOutcome [demoLink "https://example.com/x/" 1] "https://example.com/x" ≠
      .duplicate := by
  refine ⟨?_, ?_, ?_⟩ <;> decide

/-- C2 is false as stated: the queries `a=1&b=2` and `b=2&a=1` hold the same
parameters (none of them tracking parameters) in a different order — they
are logically equivalent after tracking-parameter removal — yet the dedup
keys of the two URLs differ, because the surviving query parameters are kept
in their original order. -/
theorem C2_counterexample :
    (parseParams "a=1&b=2".data).Perm (parseParams "b=2&a=1".data) ∧
    (∀ p ∈ parseParams "a=1&b=2".data, ¬ trackingParamName p.1) ∧
    getDedupKey "https://a.com/x?a=1&b=2" ≠ getDedupKey "https://a.com/x?b=2&a=1" := by
  refine ⟨?_, ?_, ?_⟩ <;> decide

/-- C8 is false as stated: for a Markdown body whose `Title:` line appears
only on the second line, the pipeline extracts that later title instead of
the fixed placeholder (the regex carries the `m` flag, so `^Title:` matches
at every line start). -/
theorem C8_counterexample :
    (fetchMetadata "https://x.com/a" none (some ⟨true, "Hello\nTitle: Real Title"⟩)
        (fun _ => emptyDoc)).title = "Real Title" ∧
    ("Real Title" : String) ≠ "Enlace Guardado" := by
  refine ⟨?_, ?_⟩ <;> decide

/-- The scan of `pickBestImage` returns either the seed candidate or a list
element. -/
theorem pickBestLoop_mem (cs : List String) (best : String) (s : Int) :
    (pickBestLoop cs best s).1 = best ∨ (pickBestLoop cs best s).1 ∈ cs := by
  induction cs generalizing best s with
  | nil => left; rfl
  | cons c rest ih =>
    unfold pickBestLoop
    dsimp only
    split
    · rcases ih c (scoreImageUrl c) with h | h
      · right; rw [h]; exact List.mem_cons_self _ _
      · right; exact List.mem_cons_of_mem _ h
    · rcases ih best s with h | h
      · left; exact h
      · right; exact List.mem_cons_of_mem _ h

/-- The running best score of the scan is the score of the running best
candidate. -/
theorem pickBestLoop_score (cs : List String) (best : String) :
    (pickBestLoop cs best (scoreImageUrl best)).2 =
      scoreImageUrl (pickBestLoop cs best (scoreImageUrl best)).1 := by
  induction cs generalizing best with
  | nil => rfl
  | cons c rest ih =>
    unfold pickBestLoop
    dsimp only
    split
    · exact ih c
    · exact ih best

/-- C7: whenever every surviving candidate scores below the low-confidence
threshold (JS score 2, scaled to 200000), `pickBestImage` returns absent; in
particular the lone candidate `/logo-32x32.png` on an https page yields
absent. -/
theorem C7_low_scores_yield_absent :
    (∀ (pageUrl : String) (candidates : List String) (allowExternalHosts : Bool),
      (∀ u ∈ survivingCandidates pageUrl candidates allowExternalHosts,
        scoreImageUrl u < 200000) →
      pickBestImage pageUrl candidates allowExternalHosts = none) ∧
    pickBestImage "https://site.com/post" ["/logo-32x32.png"] false = none := by
  constructor
  · intro pageUrl candidates ext hlow
    unfold pickBestImage
    cases hs : survivingCandidates pageUrl candidates ext with
    | nil => rfl
    | cons first rest =>
      have hmem : (pickBestLoop rest first (scoreImageUrl first)).1 ∈ first :: rest := by
        rcases pickBestLoop_mem rest first (scoreImageUrl first) with h | h
        · rw [h]; exact List.mem_cons_self _ _
        · exact List.mem_cons_of_mem _ h
      have hlt : (pickBestLoop rest first (scoreImageUrl first)).2 < 200000 := by
        rw [pickBestLoop_score rest first]
        exact hlow _ (hs ▸ hmem)
      simp only [hlt, if_pos]
  · decide

/-- Witness for `C7_low_scores_yield_absent` at a concrete page and
candidate list. -/
theorem C7_witness :
    pickBestImage "https://blog.example.org/article" ["/logo-32x32.png"] false = none :=
  C7_low_scores_yield_absent.1 "https://blog.example.org/article" ["/logo-32x32.png"] false
    (by decide)

/-- C5: the metadata resolution pipeline is total — for every input and every
behaviour of the fetch and DOM oracles the result carries the
scheme-prefixed URL, and when attempt 1 produced no usable body and attempt 2
failed (rejected, non-ok, or empty) the result is exactly the placeholder. -/
theorem C5_pipeline_never_fails :
    (∀ (url : String) (r1 r2 : Option FetchResp) (parseDoc : String → DocModel),
      (fetchMetadata url r1 r2 parseDoc).url =
        (if strStarts url "http" then url else "https://" ++ url)) ∧
    (∀ (url : String) (r1 r2 : Option FetchResp) (parseDoc : String → DocModel),
      attempt1Body r1 = "" →
      (∀ resp, r2 = some resp → resp.ok = false ∨ resp.body = "") →
      fetchMetadata url r1 r2 parseDoc =
        { title := "Enlace Guardado", image := none,
          url := if strStarts url "http" then url else "https://" ++ url }) := by
  constructor
  · intro url r1 r2 d
    unfold fetchMetadata
    dsimp only
    split <;> first | rfl | (split <;> rfl)
  · intro url r1 r2 d h1 h2
    unfold fetchMetadata
    rw [h1]
    cases r2 with
    | none => rfl
    | some resp =>
      rcases h2 resp rfl with hok | hbody
      · simp [hok]
      · cases hok : resp.ok with
        | false => simp [hok]
        | true => simp [hok, hbody]

/-- Witness for `C5_pipeline_never_fails` with both fetch attempts failing. -/
theorem C5_witness :
    fetchMetadata "example.com" none none (fun _ => emptyDoc) =
      { title := "Enlace Guardado", image := none, url := "https://example.com" } := by
  rw [C5_pipeline_never_fails.2 "example.com" none none (fun _ => emptyDoc) rfl
    (fun resp hresp => by cases hresp)]
  decide

/-- C1 (amended): the add flow rejects as duplicate exactly when some
existing record's `url` equals the normalized input URL case-insensitively
(the dedup key plays no role in this decision). -/
theorem C1_amended_url_equality (links : List LinkItem) (input normalized : String)
    (h : validateUrl input = .ok normalized) :
    (agregarEnlaceOutcome links input = .duplicate ↔
      ∃ l ∈ links, jsToLower l.url = jsToLower normalized) := by
  unfold agregarEnlaceOutcome
  rw [h]
  dsimp only
  split
  · next hany =>
    have hex : ∃ l ∈ links, jsToLower l.url = jsToLower normalized := by
      simpa using List.any_eq_true.mp hany
    exact iff_of_true rfl hex
  · next hany =>
    have hnex : ¬ ∃ l ∈ links, jsToLower l.url = jsToLower normalized := by
      intro hex
      obtain ⟨l, hl, he⟩ := hex
      exact hany (List.any_eq_true.mpr ⟨l, hl, by simpa using he⟩)
    exact iff_of_false (by simp) hnex

/-- Witness for `C1_amended_url_equality`: the same URL re-entered is
rejected as a duplicate. -/
theorem C1_amended_witness :
    agregarEnlaceOutcome [demoLink "https://example.com/a" 1] "example.com/a" = .duplicate :=
  (C1_amended_url_equality [demoLink "https://example.com/a" 1] "example.com/a"
      "https://example.com/a" (by decide)).mpr
    ⟨demoLink "https://example.com/a" 1, by decide, by decide⟩

/-- C10: an accepted import never has an empty image; an absent/non-string,
blank, or favicon-service image is replaced by the built-in fallback. -/
theorem C10_import_image_fallback (freshId : String) (now : Int) (r : RawLink)
    (rec : LinkItem) (h : normalizeImportedLink freshId now (some r) = some rec) :
    rec.image ≠ "" ∧
    ((r.image = none ∨ jsTrim (r.image.getD "") = "" ∨
      strIncludes (jsTrim (r.image.getD "")) "google.com/s2/favicons" = true) →
      rec.image = FALLBACK_IMAGE) := by
  unfold normalizeImportedLink at h
  dsimp only at h
  cases hu : r.url with
  | none => rw [hu] at h; cases h
  | some rawUrl =>
    rw [hu] at h
    dsimp only at h
    by_cases ht : jsTrim rawUrl = ""
    · rw [if_pos ht] at h; cases h
    · rw [if_neg ht] at h
      cases hp : parseURL (ensureHttpUrl (jsTrim rawUrl)) with
      | none => rw [hp] at h; cases h
      | some urlObj =>
        rw [hp] at h
        dsimp only at h
        have hrec := (Option.some.injEq _ _).mp h
        have himg : rec.image =
            (if (if ¬ strIncludes (jsTrim (r.image.getD "")) "google.com/s2/favicons" ∧
                    jsTrim (r.image.getD "") ≠ "" then jsTrim (r.image.getD "") else "") = ""
             then FALLBACK_IMAGE
             else (if ¬ strIncludes (jsTrim (r.image.getD "")) "google.com/s2/favicons" ∧
                      jsTrim (r.image.getD "") ≠ "" then jsTrim (r.image.getD "") else "")) := by
          rw [← hrec]
        constructor
        · rw [himg]
          by_cases hcd : (¬ strIncludes (jsTrim (r.image.getD "")) "google.com/s2/favicons" = true ∧
              jsTrim (r.image.getD "") ≠ "")
          · rw [if_pos hcd, if_neg hcd.2]
            exact hcd.2
          · rw [if_neg hcd, if_pos rfl]
            decide
        · intro hcase
          rw [himg]
          have hstep : (if ¬ strIncludes (jsTrim (r.image.getD "")) "google.com/s2/favicons" ∧
              jsTrim (r.image.getD "") ≠ "" then jsTrim (r.image.getD "") else "") = "" := by
            rcases hcase with hnone | hblank | hfav
            · rw [if_neg]
              intro hb
              exact hb.2 (by rw [hnone]; rfl)
            · rw [if_neg]
              intro hb
              exact hb.2 hblank
            · rw [if_neg]
              intro hb
              exact hb.1 hfav
          rw [hstep, if_pos rfl]

/-- Witness for `C10_import_image_fallback` on a concrete import with no
image field. -/
theorem C10_witness :
    demoImported.image ≠ "" ∧ demoImported.image = FALLBACK_IMAGE :=
  ⟨(C10_import_image_fallback "fresh" 100 demoRawNoImage demoImported (by decide)).1,
   (C10_import_image_fallback "fresh" 100 demoRawNoImage demoImported (by decide)).2
     (Or.inl rfl)⟩

/-! ### Merge-engine lemmas -/

/-- `mergeTwoLinks` keeps the accumulator's `url`. -/
theorem mergeTwoLinks_url (a b : LinkItem) : (mergeTwoLinks a b).url = a.url := rfl

/-- `mergeTwoLinks` merges the tag sets by union (first-occurrence order). -/
theorem dedupKeepFirstAux_mem (x : String) :
    ∀ (l : List String) (seen : List String),
      x ∈ dedupKeepFirstAux seen l ↔ x ∈ l ∧ x ∉ seen := by
  intro l
  induction l with
  | nil => intro seen; simp [dedupKeepFirstAux]
  | cons y ys ih =>
    intro seen
    unfold dedupKeepFirstAux
    by_cases hy : y ∈ seen
    · rw [if_pos hy, ih]
      constructor
      · rintro ⟨hx, hs⟩
        exact ⟨List.mem_cons_of_mem _ hx, hs⟩
      · rintro ⟨hx, hs⟩
        rcases List.mem_cons.mp hx with rfl | hx
        · exact absurd hy hs
        · exact ⟨hx, hs⟩
    · rw [if_neg hy]
      by_cases hxy : x = y
      · subst hxy
        simp [hy]
      · simp only [List.mem_cons, hxy, false_or]
        rw [ih]
        simp [hxy]

/-- Membership in the JS `Set`-based deduplication. -/
theorem dedupKeepFirst_mem (x : String) (l : List String) :
    x ∈ dedupKeepFirst l ↔ x ∈ l := by
  unfold dedupKeepFirst
  rw [dedupKeepFirstAux_mem]
  simp

/-- Tag membership after `mergeTwoLinks` is the union of the inputs'. -/
theorem mergeTwoLinks_tags (a b : LinkItem) (t : String) :
    t ∈ (mergeTwoLinks a b).tags ↔ t ∈ a.tags ∨ t ∈ b.tags := by
  show t ∈ dedupKeepFirst (a.tags ++ b.tags) ↔ _
  rw [dedupKeepFirst_mem]
  exact List.mem_append

/-- `mapGet` misses exactly the keys not in the map. -/
theorem mapGet_eq_none_iff (m : List (String × LinkItem)) (k : String) :
    mapGet m k = none ↔ k ∉ m.map Prod.fst := by
  induction m with
  | nil => simp [mapGet]
  | cons p rest ih =>
    obtain ⟨k', v⟩ := p
    by_cases hk : k' = k
    · subst hk
      simp [mapGet]
    · simp only [mapGet, if_neg hk, List.map_cons, List.mem_cons]
      rw [ih]
      constructor
      · intro hnot hmem
        rcases hmem with h | h
        · exact hk h.symm
        · exact hnot h
      · intro hnot h
        exact hnot (Or.inr h)

/-- Setting an absent key appends it. -/
theorem mapSet_of_get_none (m : List (String × LinkItem)) (k : String) (v : LinkItem)
    (h : mapGet m k = none) : mapSet m k v = m ++ [(k, v)] := by
  induction m with
  | nil => rfl
  | cons p rest ih =>
    obtain ⟨k', v'⟩ := p
    unfold mapGet at h
    unfold mapSet
    by_cases hk : k' = k
    · rw [if_pos hk] at h
      cases h
    · rw [if_neg hk] at h ⊢
      rw [ih h]
      rfl

/-- Reading after writing. -/
theorem mapGet_mapSet (m : List (String × LinkItem)) (k : String) (v : LinkItem)
    (k' : String) :
    mapGet (mapSet m k v) k' = if k' = k then some v else mapGet m k' := by
  induction m with
  | nil =>
    simp only [mapSet, mapGet]
    by_cases hk : k = k'
    · subst hk
      simp
    · rw [if_neg hk, if_neg (fun h => hk h.symm)]
  | cons p rest ih =>
    obtain ⟨k₀, v₀⟩ := p
    simp only [mapSet]
    by_cases h0 : k₀ = k
    · subst h0
      simp only [if_pos rfl, mapGet]
      by_cases hk : k₀ = k'
      · subst hk
        simp
      · simp only [if_neg hk, if_neg (fun h : k' = k₀ => hk h.symm)]
    · rw [if_neg h0]
      simp only [mapGet]
      by_cases hk : k₀ = k'
      · subst hk
        simp [h0]
      · simp only [if_neg hk]
        exact ih

/-- Setting a present key replaces the first occurrence in place. -/
theorem mapSet_decomp (m : List (String × LinkItem)) (k : String) (v ex : LinkItem)
    (h : mapGet m k = some ex) :
    ∃ pre post, m = pre ++ (k, ex) :: post ∧ k ∉ pre.map Prod.fst ∧
      mapSet m k v = pre ++ (k, v) :: post := by
  induction m with
  | nil => cases h
  | cons p rest ih =>
    obtain ⟨k₀, v₀⟩ := p
    unfold mapGet at h
    by_cases h0 : k₀ = k
    · subst h0
      rw [if_pos rfl] at h
      obtain rfl := Option.some.inj h
      refine ⟨[], rest, rfl, by simp, ?_⟩
      unfold mapSet
      rw [if_pos rfl]
      rfl
    · rw [if_neg h0] at h
      obtain ⟨pre, post, hm, hpre, hset⟩ := ih h
      refine ⟨(k₀, v₀) :: pre, post, by simp [hm], ?_, ?_⟩
      · simp only [List.map_cons, List.mem_cons]
        intro hc
        rcases hc with hc | hc
        · exact h0 hc.symm
        · exact hpre hc
      · unfold mapSet
        rw [if_neg h0, hset]
        rfl

/-- Invariant of the merge fold: every map entry's key is the dedup key of
its record's url, and the keys are distinct. -/
theorem mergeFold_invariant (l : List LinkItem) :
    ∀ (m : List (String × LinkItem)) (r : Nat),
      (∀ p ∈ m, getDedupKey p.2.url = p.1) →
      ((m.map Prod.fst).Nodup) →
      (∀ p ∈ (l.foldl mergeStep (m, r)).1, getDedupKey p.2.url = p.1) ∧
        ((l.foldl mergeStep (m, r)).1.map Prod.fst).Nodup := by
  induction l with
  | nil => intro m r hgood hnodup; exact ⟨hgood, hnodup⟩
  | cons x rest ih =>
    intro m r hgood hnodup
    rw [List.foldl_cons]
    unfold mergeStep
    dsimp only
    cases hget : mapGet m (getDedupKey x.url) with
    | none =>
      dsimp only
      rw [mapSet_of_get_none _ _ _ hget]
      apply ih
      · intro p hp
        rcases List.mem_append.mp hp with hp | hp
        · exact hgood p hp
        · rcases List.mem_singleton.mp hp with rfl
          rfl
      · rw [List.map_append]
        rw [List.nodup_append]
        refine ⟨hnodup, List.nodup_singleton _, ?_⟩
        intro a ha hb
        rcases List.mem_singleton.mp hb with rfl
        exact (mapGet_eq_none_iff _ _).mp hget ha
    | some ex =>
      dsimp only
      obtain ⟨pre, post, hm, hpre, hset⟩ := mapSet_decomp m _ (mergeTwoLinks ex x) ex hget
      rw [hset]
      apply ih
      · intro p hp
        rcases List.mem_append.mp hp with hp | hp
        · exact hgood p (by rw [hm]; exact List.mem_append_left _ hp)
        · rcases List.mem_cons.mp hp with rfl | hp
          · show getDedupKey (mergeTwoLinks ex x).url = _
            rw [mergeTwoLinks_url]
            exact hgood (getDedupKey x.url, ex) (by rw [hm]; exact List.mem_append_right _ (List.mem_cons_self _ _))
          · exact hgood p (by rw [hm]; exact List.mem_append_right _ (List.mem_cons_of_mem _ hp))
      · have : (pre ++ (getDedupKey x.url, mergeTwoLinks ex x) :: post).map Prod.fst =
            m.map Prod.fst := by
          rw [hm]
          simp
        rw [this]
        exact hnodup

/-- When the incoming records' dedup keys are pairwise distinct and all
absent from the map, the fold removes nothing. -/
theorem mergeFold_removed_of_nodup (l : List LinkItem) :
    ∀ (m : List (String × LinkItem)) (r : Nat),
      ((l.map (fun x => getDedupKey x.url)).Nodup) →
      (∀ x ∈ l, mapGet m (getDedupKey x.url) = none) →
      (l.foldl mergeStep (m, r)).2 = r := by
  induction l with
  | nil => intro m r _ _; rfl
  | cons x rest ih =>
    intro m r hnodup hfresh
    rw [List.foldl_cons]
    have hstep : mergeStep (m, r) x = (mapSet m (getDedupKey x.url) x, r) := by
      simp only [mergeStep, hfresh x (List.mem_cons_self _ _)]
    rw [hstep]
    rw [List.map_cons, List.nodup_cons] at hnodup
    apply ih
    · exact hnodup.2
    · intro y hy
      rw [mapGet_mapSet]
      rw [if_neg]
      · exact hfresh y (List.mem_cons_of_mem _ hy)
      · intro he
        exact hnodup.1 (he ▸ List.mem_map_of_mem _ hy)

/-- The merged output's dedup keys are pairwise distinct. -/
theorem merged_keys_nodup (xs : List LinkItem) :
    ((mergeDuplicates xs).merged.map (fun x => getDedupKey x.url)).Nodup := by
  have hm : (mergeDuplicates xs).merged =
      ((xs.mergeSort byTimestampDesc).foldl mergeStep ([], 0)).1.map (·.2) := rfl
  have hinv := mergeFold_invariant (xs.mergeSort byTimestampDesc) [] 0
    (by intro p hp; cases hp) (by simp)
  rw [hm, List.map_map]
  have heq : ((xs.mergeSort byTimestampDesc).foldl mergeStep
        ([], 0)).1.map ((fun x => getDedupKey x.url) ∘ (·.2)) =
      ((xs.mergeSort byTimestampDesc).foldl mergeStep
        ([], 0)).1.map Prod.fst := by
    apply List.map_congr_left
    intro p hp
    exact hinv.1 p hp
  rw [heq]
  exact hinv.2

/-- On a list whose dedup keys are pairwise distinct, `mergeDuplicates`
removes nothing. -/
theorem mergeDuplicates_removed_zero (ys : List LinkItem)
    (h : (ys.map (fun x => getDedupKey x.url)).Nodup) :
    (mergeDuplicates ys).removed = 0 := by
  have hr : (mergeDuplicates ys).removed =
      ((ys.mergeSort byTimestampDesc).foldl mergeStep ([], 0)).2 := rfl
  rw [hr]
  apply mergeFold_removed_of_nodup
  · have hperm := List.mergeSort_perm ys byTimestampDesc
    have hpm := hperm.map (fun x => getDedupKey x.url)
    exact hpm.nodup_iff.mpr h
  · intro x _
    rfl

/-- C3: `mergeDuplicates` is idempotent — re-running it on an already-merged
list removes nothing (the operation itself is a pure Lean function of its
input, as the source is of its argument array).  Each dedup key maps to
exactly one record after the first pass (`merged_keys_nodup`), so the second
pass encounters no collision. -/
theorem C3_mergeDuplicates_idempotent (xs : List LinkItem) :
    (mergeDuplicates (mergeDuplicates xs).merged).removed = 0 :=
  mergeDuplicates_removed_zero _ (merged_keys_nodup xs)

/-- Distribute an existential tag search over an append of map entries. -/
theorem exists_tag_append (l₁ l₂ : List (String × LinkItem)) (t : String) :
    (∃ p ∈ l₁ ++ l₂, t ∈ p.2.tags) ↔
      (∃ p ∈ l₁, t ∈ p.2.tags) ∨ ∃ p ∈ l₂, t ∈ p.2.tags := by
  constructor
  · rintro ⟨p, hp, htp⟩
    rcases List.mem_append.mp hp with h | h
    · exact Or.inl ⟨p, h, htp⟩
    · exact Or.inr ⟨p, h, htp⟩
  · rintro (⟨p, hp, htp⟩ | ⟨p, hp, htp⟩)
    · exact ⟨p, List.mem_append_left _ hp, htp⟩
    · exact ⟨p, List.mem_append_right _ hp, htp⟩

/-- Peel the head entry off an existential tag search. -/
theorem exists_tag_cons (q : String × LinkItem) (l : List (String × LinkItem)) (t : String) :
    (∃ p ∈ q :: l, t ∈ p.2.tags) ↔ t ∈ q.2.tags ∨ ∃ p ∈ l, t ∈ p.2.tags := by
  constructor
  · rintro ⟨p, hp, htp⟩
    rcases List.mem_cons.mp hp with rfl | h
    · exact Or.inl htp
    · exact Or.inr ⟨p, h, htp⟩
  · rintro (h | ⟨p, hp, htp⟩)
    · exact ⟨q, List.mem_cons_self _ _, h⟩
    · exact ⟨p, List.mem_cons_of_mem _ hp, htp⟩

/-- Peel the head record off an existential tag search over records. -/
theorem exists_tag_rec_cons (x : LinkItem) (l : List LinkItem) (t : String) :
    (∃ y ∈ x :: l, t ∈ y.tags) ↔ t ∈ x.tags ∨ ∃ y ∈ l, t ∈ y.tags := by
  constructor
  · rintro ⟨y, hy, hty⟩
    rcases List.mem_cons.mp hy with rfl | h
    · exact Or.inl hty
    · exact Or.inr ⟨y, h, hty⟩
  · rintro (h | ⟨y, hy, hty⟩)
    · exact ⟨x, List.mem_cons_self _ _, h⟩
    · exact ⟨y, List.mem_cons_of_mem _ hy, hty⟩

/-- Tag-union invariant of the merge fold. -/
theorem mergeFold_tags (l : List LinkItem) :
    ∀ (m : List (String × LinkItem)) (r : Nat) (t : String),
      ((∃ p ∈ (l.foldl mergeStep (m, r)).1, t ∈ p.2.tags) ↔
        (∃ p ∈ m, t ∈ p.2.tags) ∨ (∃ x ∈ l, t ∈ x.tags)) := by
  induction l with
  | nil => intro m r t; simp
  | cons x rest ih =>
    intro m r t
    rw [List.foldl_cons]
    cases hget : mapGet m (getDedupKey x.url) with
    | none =>
      have hstep : mergeStep (m, r) x = (mapSet m (getDedupKey x.url) x, r) := by
        simp only [mergeStep, hget]
      rw [hstep, ih, mapSet_of_get_none _ _ _ hget,
        exists_tag_append, exists_tag_cons, exists_tag_rec_cons]
      simp only [List.not_mem_nil, false_and, exists_false, or_false]
      exact or_assoc
    | some ex =>
      have hstep : mergeStep (m, r) x =
          (mapSet m (getDedupKey x.url) (mergeTwoLinks ex x), r + 1) := by
        simp only [mergeStep, hget]
      obtain ⟨pre, post, hm, hpre, hset⟩ := mapSet_decomp m _ (mergeTwoLinks ex x) ex hget
      rw [hstep, ih, hset, hm,
        exists_tag_append, exists_tag_append, exists_tag_cons, exists_tag_cons,
        exists_tag_rec_cons]
      dsimp only
      rw [mergeTwoLinks_tags]
      generalize (∃ p ∈ pre, t ∈ p.2.tags) = P1
      generalize (∃ p ∈ post, t ∈ p.2.tags) = P2
      generalize (∃ y ∈ rest, t ∈ y.tags) = D
      tauto

/-- C4: `mergeDuplicates` never loses tag information — a tag occurs in some
output record exactly when it occurs in some input record (tags of merged
duplicates are combined by set union). -/
theorem C4_mergeDuplicates_tag_union (xs : List LinkItem) (t : String) :
    (∃ l ∈ (mergeDuplicates xs).merged, t ∈ l.tags) ↔ ∃ l ∈ xs, t ∈ l.tags := by
  have hm : (mergeDuplicates xs).merged =
      ((xs.mergeSort byTimestampDesc).foldl mergeStep ([], 0)).1.map (·.2) := rfl
  rw [hm]
  have hfold := mergeFold_tags (xs.mergeSort byTimestampDesc) [] 0 t
  have hperm := List.mergeSort_perm xs byTimestampDesc
  constructor
  · rintro ⟨l, hl, ht⟩
    obtain ⟨p, hp, rfl⟩ := List.mem_map.mp hl
    rcases hfold.mp ⟨p, hp, ht⟩ with ⟨q, hq, _⟩ | ⟨x, hx, htx⟩
    · cases hq
    · exact ⟨x, hperm.subset hx, htx⟩
  · rintro ⟨x, hx, htx⟩
    have hx' : x ∈ xs.mergeSort byTimestampDesc :=
      hperm.mem_iff.mpr hx
    obtain ⟨p, hp, htp⟩ := hfold.mpr (Or.inr ⟨x, hx', htx⟩)
    exact ⟨p.2, List.mem_map_of_mem _ hp, htp⟩

/-! ### Query-string lemmas for the canonicalizer -/

/-- `splitChar` always returns at least one part. -/
theorem splitChar_ne_nil (c : Char) (l : Chars) : splitChar c l ≠ [] := by
  cases l with
  | nil => simp [splitChar]
  | cons x xs =>
    unfold splitChar
    split
    · simp
    · split
      · simp
      · simp

/-- No part produced by `splitChar` contains the separator. -/
theorem splitChar_not_mem (c : Char) (l : Chars) :
    ∀ part ∈ splitChar c l, c ∉ part := by
  induction l with
  | nil =>
    intro part hp
    rcases List.mem_singleton.mp hp with rfl
    exact List.not_mem_nil c
  | cons x xs ih =>
    intro part hp
    unfold splitChar at hp
    by_cases hx : x = c
    · rw [if_pos hx] at hp
      rcases List.mem_cons.mp hp with rfl | hp
      · exact List.not_mem_nil c
      · exact ih part hp
    · rw [if_neg hx] at hp
      cases hsp : splitChar c xs with
      | nil => exact absurd hsp (splitChar_ne_nil c xs)
      | cons h t =>
        rw [hsp] at hp
        rcases List.mem_cons.mp hp with rfl | hp
        · intro hc
          rcases List.mem_cons.mp hc with hcx | hc
          · exact hx hcx.symm
          · exact ih h (hsp ▸ List.mem_cons_self h t) hc
        · exact ih part (hsp ▸ List.mem_cons_of_mem h hp)

/-- A separator-free string is a single part. -/
theorem splitChar_of_not_mem (c : Char) (s : Chars) (h : c ∉ s) :
    splitChar c s = [s] := by
  induction s with
  | nil => rfl
  | cons x xs ih =>
    unfold splitChar
    rw [if_neg (fun he => h (by rw [← he]; exact List.mem_cons_self _ _))]
    rw [ih (fun hc => h (List.mem_cons_of_mem _ hc))]

/-- Splitting after a separator-free head. -/
theorem splitChar_append_sep (c : Char) (r : Chars) :
    ∀ s : Chars, c ∉ s → splitChar c (s ++ c :: r) = s :: splitChar c r := by
  intro s
  induction s with
  | nil =>
    intro _
    show splitChar c (c :: r) = [] :: splitChar c r
    rw [splitChar, if_pos rfl]
  | cons x xs ih =>
    intro h
    have hx : ¬ x = c := fun he => h (by rw [← he]; exact List.mem_cons_self _ _)
    show splitChar c (x :: (xs ++ c :: r)) = (x :: xs) :: splitChar c r
    rw [splitChar, if_neg hx, ih (fun hc => h (List.mem_cons_of_mem _ hc))]

/-- `splitChar` is a left inverse of `joinChar` on separator-free parts. -/
theorem splitChar_joinChar (c : Char) :
    ∀ segs : List Chars, segs ≠ [] → (∀ s ∈ segs, c ∉ s) →
      splitChar c (joinChar c segs) = segs := by
  intro segs
  induction segs with
  | nil => intro h; exact absurd rfl h
  | cons s rest ih =>
    intro _ hfree
    cases rest with
    | nil =>
      show splitChar c s = [s]
      exact splitChar_of_not_mem c s (hfree s (List.mem_cons_self _ _))
    | cons s' rest' =>
      show splitChar c (s ++ c :: joinChar c (s' :: rest')) = _
      rw [splitChar_append_sep c _ s (hfree s (List.mem_cons_self _ _))]
      rw [ih (by simp) (fun x hx => hfree x (List.mem_cons_of_mem _ hx))]

/-- Decomposition of `splitAtChar`: the head is separator-free, and the
split reassembles the input. -/
theorem splitAtChar_spec (c : Char) (l : Chars) :
    c ∉ (splitAtChar c l).1 ∧
    ((splitAtChar c l).2 = none → (splitAtChar c l).1 = l) ∧
    (∀ b, (splitAtChar c l).2 = some b → l = (splitAtChar c l).1 ++ c :: b) := by
  induction l with
  | nil =>
    exact ⟨List.not_mem_nil c, fun _ => rfl, fun b hb => nomatch hb⟩
  | cons x xs ih =>
    unfold splitAtChar
    by_cases hx : x = c
    · rw [if_pos hx]
      subst hx
      refine ⟨List.not_mem_nil _, ?_, ?_⟩
      · intro h
        exact absurd h (by simp)
      · intro b hb
        obtain rfl := Option.some.inj hb
        rfl
    · rw [if_neg hx]
      dsimp only
      refine ⟨?_, ?_, ?_⟩
      · intro hc
        rcases List.mem_cons.mp hc with hcx | hc
        · exact hx hcx.symm
        · exact ih.1 hc
      · intro h
        rw [ih.2.1 h]
      · intro b hb
        rw [List.cons_append, ← ih.2.2 b hb]

/-- Splitting a separator-free head off an explicit decomposition. -/
theorem splitAtChar_no_sep (c : Char) (v : Chars) :
    ∀ k : Chars, c ∉ k → splitAtChar c (k ++ c :: v) = (k, some v) := by
  intro k
  induction k with
  | nil =>
    intro _
    simp only [List.nil_append]
    unfold splitAtChar
    rw [if_pos rfl]
  | cons x xs ih =>
    intro h
    have hx : ¬ x = c := fun he => h (by rw [← he]; exact List.mem_cons_self _ _)
    show splitAtChar c (x :: (xs ++ c :: v)) = _
    unfold splitAtChar
    rw [if_neg hx, ih (fun hc => h (List.mem_cons_of_mem _ hc))]

/-- Every parameter produced by `parseParams` has a separator-free name and
value (`'&'` occurs in neither, `'='` not in the name). -/
theorem parseParams_wf (q : Chars) :
    ∀ p ∈ parseParams q, '&' ∉ p.1 ∧ '&' ∉ p.2 ∧ '=' ∉ p.1 := by
  intro p hp
  unfold parseParams at hp
  obtain ⟨seg, hseg, rfl⟩ := List.mem_map.mp hp
  dsimp only
  have hsegmem : seg ∈ splitChar '&' q := List.mem_of_mem_filter hseg
  have hamp : '&' ∉ seg := splitChar_not_mem '&' q seg hsegmem
  have hspec := splitAtChar_spec '=' seg
  cases h2 : (splitAtChar '=' seg).2 with
  | none =>
    have h1 : (splitAtChar '=' seg).1 = seg := hspec.2.1 h2
    rw [h1]
    exact ⟨hamp, List.not_mem_nil '&', h1 ▸ hspec.1⟩
  | some b =>
    have hdec := hspec.2.2 b h2
    refine ⟨?_, ?_, hspec.1⟩
    · intro hc
      apply hamp
      rw [hdec]
      exact List.mem_append_left _ hc
    · intro hc
      apply hamp
      rw [hdec]
      exact List.mem_append_right _ (List.mem_cons_of_mem _ hc)

/-- `URLSearchParams` parsing undoes serialisation on well-formed parameter
lists. -/
theorem parseParams_serializeParams (ps : List (Chars × Chars))
    (hwf : ∀ p ∈ ps, '&' ∉ p.1 ∧ '&' ∉ p.2 ∧ '=' ∉ p.1) :
    parseParams (serializeParams ps) = ps := by
  cases ps with
  | nil => rfl
  | cons p₀ rest =>
    unfold parseParams serializeParams
    have hsegs : splitChar '&' (joinChar '&' ((p₀ :: rest).map (fun p => p.1 ++ '=' :: p.2))) =
        (p₀ :: rest).map (fun p => p.1 ++ '=' :: p.2) := by
      apply splitChar_joinChar
      · simp
      · intro s hs
        obtain ⟨p, hp, rfl⟩ := List.mem_map.mp hs
        have hw := hwf p hp
        intro hc
        rcases List.mem_append.mp hc with hc | hc
        · exact hw.1 hc
        · rcases List.mem_cons.mp hc with hc | hc
          · cases hc
          · exact hw.2.1 hc
    rw [hsegs]
    have hfilter : ((p₀ :: rest).map (fun p => p.1 ++ '=' :: p.2)).filter (· ≠ []) =
        (p₀ :: rest).map (fun p => p.1 ++ '=' :: p.2) := by
      apply List.filter_eq_self.mpr
      intro s hs
      obtain ⟨p, hp, rfl⟩ := List.mem_map.mp hs
      simp
    rw [hfilter, List.map_map]
    have hpt : ∀ p ∈ (p₀ :: rest),
        ((fun seg => ((splitAtChar '=' seg).1, (splitAtChar '=' seg).2.getD [])) ∘
          (fun p => p.1 ++ '=' :: p.2)) p = p := by
      intro p hp
      have hk := (hwf p hp).2.2
      show ((splitAtChar '=' (p.1 ++ '=' :: p.2)).1,
        ((splitAtChar '=' (p.1 ++ '=' :: p.2)).2).getD []) = p
      rw [splitAtChar_no_sep '=' p.2 p.1 hk]
      rfl
    rw [List.map_congr_left hpt]
    simp

/-- The tracking-parameter removal of `getDedupKey` is idempotent. -/
theorem removeTracking_idem (q : Option Chars) :
    removeTracking (removeTracking q) = removeTracking q := by
  cases q with
  | none => rfl
  | some qs =>
    by_cases htr : (parseParams qs).any (fun p => trackingParamName p.1) = true
    · have h1 : removeTracking (some qs) =
          match (parseParams qs).filter (fun p => ¬ trackingParamName p.1) with
          | [] => none
          | remaining => some (serializeParams remaining) := by
        unfold removeTracking
        dsimp only
        rw [if_pos htr]
      cases hf : (parseParams qs).filter (fun p => ¬ trackingParamName p.1) with
      | nil =>
        rw [h1, hf]
        rfl
      | cons r₀ rs =>
        rw [h1, hf]
        have hsub : ∀ p ∈ (r₀ :: rs), p ∈ parseParams qs := by
          intro p hp
          exact List.mem_of_mem_filter (hf ▸ hp)
        have hwf' : ∀ p ∈ (r₀ :: rs), '&' ∉ p.1 ∧ '&' ∉ p.2 ∧ '=' ∉ p.1 :=
          fun p hp => parseParams_wf qs p (hsub p hp)
        have hpp : parseParams (serializeParams (r₀ :: rs)) = r₀ :: rs :=
          parseParams_serializeParams _ hwf'
        have hnotr : ((r₀ :: rs).any (fun p => trackingParamName p.1)) = false := by
          rw [List.any_eq_false]
          intro p hp
          have hmf := List.mem_filter.mp (hf ▸ hp)
          simpa using hmf.2
        show removeTracking (some (serializeParams (r₀ :: rs))) = _
        unfold removeTracking
        dsimp only
        rw [hpp, hnotr]
        simp
    · have h1 : removeTracking (some qs) = some qs := by
        unfold removeTracking
        dsimp only
        rw [if_neg htr]
      simp only [h1]

/-- The path trailing-slash collapse ignores one more trailing slash. -/
theorem stripTrailSlashes_append_slash (p : Chars) :
    stripTrailSlashes (p ++ ['/']) = stripTrailSlashes p := by
  unfold stripTrailSlashes
  rw [List.reverse_append]
  simp [List.dropWhile]

/-- C2 (amended): the dedup key ignores the fragment, one more trailing
slash on the path, and the removal of tracking parameters, and it depends
only on host, path and the tracking-removed query — so reorderings that move
only tracking parameters preserve it (reordering the surviving non-tracking
parameters can change it, as the counterexample shows); both concrete
equalities of the claim hold. -/
theorem C2_amended_invariances :
    (∀ (u : URLModel) (f : Option Chars),
      dedupKeyOfURL { u with fragment := f } = dedupKeyOfURL u) ∧
    (∀ u : URLModel,
      dedupKeyOfURL { u with path := u.path ++ ['/'] } = dedupKeyOfURL u) ∧
    (∀ u : URLModel,
      dedupKeyOfURL { u with query := removeTracking u.query } = dedupKeyOfURL u) ∧
    (∀ u₁ u₂ : URLModel, u₁.host = u₂.host → u₁.path = u₂.path →
      removeTracking u₁.query = removeTracking u₂.query →
      dedupKeyOfURL u₁ = dedupKeyOfURL u₂) ∧
    getDedupKey "https://a.com/x/" = getDedupKey "https://a.com/x" ∧
    getDedupKey "https://site.com/page?utm_source=x&id=1" =
      getDedupKey "https://site.com/page?id=1" := by
  refine ⟨?_, ?_, ?_, ?_, ?_, ?_⟩
  · intro u f
    rfl
  · intro u
    unfold dedupKeyOfURL
    dsimp only
    rw [stripTrailSlashes_append_slash]
  · intro u
    unfold dedupKeyOfURL
    dsimp only
    rw [removeTracking_idem]
  · intro u₁ u₂ hh hp hq
    unfold dedupKeyOfURL
    rw [hh, hp, hq]
  · decide
  · decide

/-- Witness for `C2_amended_invariances` (its host/path/query-dependence
part) at concrete URLs differing only in fragment and tracking-parameter
placement. -/
theorem C2_amended_witness :
    dedupKeyOfURL ⟨"https".data, "site.com".data, "/page".data,
        some "utm_source=x&id=1".data, none⟩ =
      dedupKeyOfURL ⟨"https".data, "site.com".data, "/page".data,
        some "id=1&utm_campaign=z".data, some "sec".data⟩ :=
  C2_amended_invariances.2.2.2.1 _ _ rfl rfl (by decide)

/-! ### Markdown title-extraction lemmas -/

/-- `takeWhile` stops no later than a failing delimiter. -/
theorem takeWhile_append_stop (p : Char → Bool) (x : Char) (r : Chars)
    (hx : ¬ p x = true) :
    ∀ l : Chars, (l ++ x :: r).takeWhile p = l.takeWhile p := by
  intro l
  induction l with
  | nil =>
    simp only [List.nil_append]
    rw [List.takeWhile_cons]
    simp [hx]
  | cons y ys ih =>
    simp only [List.cons_append, List.takeWhile_cons]
    cases hy : p y with
    | false => simp
    | true => simp [ih]

/-- `takeWhile` keeps a list all of whose elements satisfy the predicate. -/
theorem takeWhile_eq_self_of_all (p : Char → Bool) :
    ∀ l : Chars, (∀ a ∈ l, p a = true) → l.takeWhile p = l := by
  intro l
  induction l with
  | nil => intro _; rfl
  | cons y ys ih =>
    intro h
    rw [List.takeWhile_cons, h y (List.mem_cons_self _ _), if_pos rfl,
      ih (fun a ha => h a (List.mem_cons_of_mem _ ha))]

/-- `dropWhile` never crosses an element failing the predicate. -/
theorem dropWhile_append_of_exists (p : Char → Bool) (r : Chars) :
    ∀ l : Chars, (∃ a ∈ l, ¬ p a = true) →
      (l ++ r).dropWhile p = l.dropWhile p ++ r := by
  intro l
  induction l with
  | nil =>
    rintro ⟨a, ha, _⟩
    cases ha
  | cons y ys ih =>
    rintro ⟨a, ha, hpa⟩
    simp only [List.cons_append, List.dropWhile_cons]
    cases hy : p y with
    | false => simp
    | true =>
      simp only [if_pos rfl]
      apply ih
      rcases List.mem_cons.mp ha with rfl | ha
      · exact absurd hy (by simpa using hpa)
      · exact ⟨a, ha, hpa⟩

/-- `dropWhile` is idempotent. -/
theorem dropWhile_dropWhile (p : Char → Bool) (l : Chars) :
    (l.dropWhile p).dropWhile p = l.dropWhile p := by
  induction l with
  | nil => rfl
  | cons y ys ih =>
    rw [List.dropWhile_cons]
    cases hy : p y with
    | false =>
      simp only [Bool.false_eq_true, if_false]
      rw [List.dropWhile_cons, hy]
      simp
    | true => simpa using ih

/-- Trimming ignores already-removed leading whitespace. -/
theorem trimChars_dropWhile (l : Chars) :
    trimChars (l.dropWhile Char.isWhitespace) = trimChars l := by
  unfold trimChars
  rw [dropWhile_dropWhile]

/-- A delimiter-free prefix survives `takeWhile (· ≠ c)`. -/
theorem prefix_takeWhile_of_not_mem (c : Char) :
    ∀ (pat l : Chars), c ∉ pat → pat <+: l →
      pat <+: l.takeWhile (fun x => x ≠ c) := by
  intro pat
  induction pat with
  | nil => intro l _ _; exact List.nil_prefix
  | cons p ps ih =>
    intro l hc hpre
    obtain ⟨t, rfl⟩ := hpre
    rw [List.cons_append, List.takeWhile_cons]
    have hpne : p ≠ c := fun he => hc (he ▸ List.mem_cons_self _ _)
    rw [if_pos (by simpa using hpne)]
    exact List.cons_prefix_cons.mpr
      ⟨rfl, ih (ps ++ t) (fun h => hc (List.mem_cons_of_mem _ h))
        (List.prefix_append ps t)⟩

/-- The boolean form of `prefix_takeWhile_of_not_mem`. -/
theorem isPrefixOf_takeWhile (c : Char) (pat l : Chars) (hc : c ∉ pat)
    (hpre : pat.isPrefixOf l = true) :
    pat.isPrefixOf (l.takeWhile (fun x => x ≠ c)) = true := by
  rw [List.isPrefixOf_iff_prefix] at hpre ⊢
  exact prefix_takeWhile_of_not_mem c pat l hc hpre

/-- `titleAtLineStart` misses when the current line does not begin with
`Title:`. -/
theorem titleAtLineStart_eq_none (l : Chars)
    (h : ¬ "Title:".data.isPrefixOf (l.takeWhile (fun x => x ≠ '\n')) = true) :
    titleAtLineStart l = none := by
  unfold titleAtLineStart
  rw [if_neg]
  intro hb
  exact h (isPrefixOf_takeWhile '\n' "Title:".data l (by decide) hb)

/-- The head part of `splitChar` is the maximal separator-free segment. -/
theorem splitChar_head (c : Char) :
    ∀ l : Chars, ∃ t, splitChar c l = l.takeWhile (fun x => x ≠ c) :: t := by
  intro l
  induction l with
  | nil => exact ⟨[], rfl⟩
  | cons x xs ih =>
    by_cases hx : x = c
    · subst hx
      refine ⟨splitChar x xs, ?_⟩
      rw [splitChar, if_pos rfl, List.takeWhile_cons]
      simp
    · obtain ⟨t, ht⟩ := ih
      refine ⟨t, ?_⟩
      rw [splitChar, if_neg hx, ht, List.takeWhile_cons]
      have : (decide (x ≠ c)) = true := by simpa using hx
      rw [this]
      simp

/-- Leading separator: the first part is empty. -/
theorem splitChar_cons_sep (c : Char) (l : Chars) :
    splitChar c (c :: l) = [] :: splitChar c l := by
  rw [splitChar, if_pos rfl]

/-- A non-separator head leaves the later parts unchanged. -/
theorem splitChar_tail_of_ne (c x : Char) (l : Chars) (hx : ¬ x = c) :
    (splitChar c (x :: l)).tail = (splitChar c l).tail := by
  rw [splitChar, if_neg hx]
  cases hsp : splitChar c l with
  | nil => exact absurd hsp (splitChar_ne_nil c l)
  | cons h t => rfl

/-- `titleScanTail` finds nothing when no later line begins with `Title:`. -/
theorem titleScanTail_eq_none :
    ∀ l : Chars,
      (∀ part ∈ (splitChar '\n' l).tail, ¬ "Title:".data.isPrefixOf part = true) →
      titleScanTail l = none := by
  intro l
  induction l with
  | nil => intro _; rfl
  | cons x xs ih =>
    intro h
    unfold titleScanTail
    by_cases hx : x = '\n'
    · rw [if_pos hx]
      subst hx
      have htail : (splitChar '\n' ('\n' :: xs)).tail = splitChar '\n' xs := by
        rw [splitChar_cons_sep]
        rfl
      rw [htail] at h
      obtain ⟨t, ht⟩ := splitChar_head '\n' xs
      have hhead : titleAtLineStart xs = none := by
        apply titleAtLineStart_eq_none
        apply h
        rw [ht]
        exact List.mem_cons_self _ _
      rw [hhead]
      show titleScanTail xs = none
      apply ih
      intro part hp
      apply h
      rw [ht]
      rw [ht] at hp
      exact List.mem_cons_of_mem _ hp
    · rw [if_neg hx]
      show titleScanTail xs = none
      apply ih
      intro part hp
      apply h
      rw [splitChar_tail_of_ne '\n' x xs hx]
      exact hp

/-- Scanning past a block of non-matching lines reaches a matching line of
the suffix. -/
theorem titleScanTail_append :
    ∀ (pre suffix : Chars) (t : String),
      (∀ part ∈ (splitChar '\n' pre).tail, ¬ "Title:".data.isPrefixOf part = true) →
      titleAtLineStart suffix = some t →
      titleScanTail (pre ++ '\n' :: suffix) = some t := by
  intro pre
  induction pre with
  | nil =>
    intro suffix t _ hs
    show titleScanTail ('\n' :: suffix) = some t
    unfold titleScanTail
    rw [if_pos rfl, hs]
  | cons x pre' ih =>
    intro suffix t h hs
    show titleScanTail (x :: (pre' ++ '\n' :: suffix)) = some t
    unfold titleScanTail
    by_cases hx : x = '\n'
    · rw [if_pos hx]
      subst hx
      have htail : (splitChar '\n' ('\n' :: pre')).tail = splitChar '\n' pre' := by
        rw [splitChar_cons_sep]
        rfl
      rw [htail] at h
      obtain ⟨tl, htl⟩ := splitChar_head '\n' pre'
      have hhead : titleAtLineStart (pre' ++ '\n' :: suffix) = none := by
        apply titleAtLineStart_eq_none
        rw [takeWhile_append_stop _ '\n' suffix (by simp)]
        apply h
        rw [htl]
        exact List.mem_cons_self _ _
      rw [hhead]
      show titleScanTail (pre' ++ '\n' :: suffix) = some t
      refine ih suffix t ?_ hs
      intro part hp
      apply h
      rw [htl]
      rw [htl] at hp
      exact List.mem_cons_of_mem _ hp
    · rw [if_neg hx]
      show titleScanTail (pre' ++ '\n' :: suffix) = some t
      refine ih suffix t ?_ hs
      intro part hp
      apply h
      rw [splitChar_tail_of_ne '\n' x pre' hx]
      exact hp

/-- Computing the captured `Title:` value: whitespace after the marker is
skipped, the capture runs to the end of the line, and the final `.trim()`
makes it the trimmed value. -/
theorem titleAtLineStart_compute (v rest : Chars)
    (hnl : '\n' ∉ v) (hws : ∃ ch ∈ v, ¬ ch.isWhitespace = true) :
    titleAtLineStart ("Title:".data ++ (v ++ '\n' :: rest)) = some (jsTrim ⟨v⟩) := by
  unfold titleAtLineStart
  rw [if_pos (by
    rw [List.isPrefixOf_iff_prefix]
    exact List.prefix_append _ _)]
  have hdrop : ("Title:".data ++ (v ++ '\n' :: rest)).drop 6 = v ++ '\n' :: rest := by
    have h6 : ("Title:".data).length = 6 := by decide
    rw [← h6, List.drop_left]
  rw [hdrop]
  rw [dropWhile_append_of_exists Char.isWhitespace ('\n' :: rest) v hws]
  rw [takeWhile_append_stop _ '\n' rest (by simp)]
  have hsub : ∀ a ∈ v.dropWhile Char.isWhitespace, decide (a ≠ '\n') = true := by
    intro a ha
    have hav : a ∈ v := (List.dropWhile_sublist _).subset ha
    simp only [decide_eq_true_eq]
    intro he
    exact hnl (he ▸ hav)
  rw [takeWhile_eq_self_of_all _ _ hsub]
  show some (jsTrim ⟨v.dropWhile Char.isWhitespace⟩) = some (jsTrim ⟨v⟩)
  unfold jsTrim
  rw [trimChars_dropWhile]

/-- `String.append` concatenates the underlying character lists. -/
theorem strData_append (s t : String) : (s ++ t).data = s.data ++ t.data := rfl

/-- A nonempty character list means a nonempty string. -/
theorem strNe_empty (s : String) (h : ¬ s.data = []) : ¬ s = "" := by
  intro he
  apply h
  rw [he]

/-- Character data of a body whose first line is a `Title:` line. -/
theorem data_title_leading (v rest : String) :
    ("Title:" ++ v ++ "\n" ++ rest).data =
      "Title:".data ++ (v.data ++ '\n' :: rest.data) := by
  rw [strData_append, strData_append, strData_append]
  have hn : ("\n" : String).data = ['\n'] := rfl
  rw [hn]
  simp [List.append_assoc]

/-- Character data of a body with a `Title:` line after a leading block. -/
theorem data_title_later (pre v rest : String) :
    (pre ++ "\n" ++ "Title:" ++ v ++ "\n" ++ rest).data =
      pre.data ++ '\n' :: ("Title:".data ++ (v.data ++ '\n' :: rest.data)) := by
  rw [strData_append, strData_append, strData_append, strData_append, strData_append]
  have hn : ("\n" : String).data = ['\n'] := rfl
  rw [hn]
  simp [List.append_assoc]

/-- A body whose first line is `Title: v` titles the bookmark with the
trimmed `v`. -/
theorem markdownTitle_leading (v rest : String)
    (hnl : '\n' ∉ v.data) (hws : ∃ ch ∈ v.data, ¬ ch.isWhitespace = true) :
    markdownTitle ("Title:" ++ v ++ "\n" ++ rest) = some (jsTrim v) := by
  unfold markdownTitle
  rw [data_title_leading, titleAtLineStart_compute v.data rest.data hnl hws]

/-- When no line of the body begins with `Title:`, the Markdown title is
absent. -/
theorem markdownTitle_none (s : String)
    (h : ∀ part ∈ splitChar '\n' s.data, ¬ "Title:".data.isPrefixOf part = true) :
    markdownTitle s = none := by
  unfold markdownTitle
  obtain ⟨tl, htl⟩ := splitChar_head '\n' s.data
  have h0 : titleAtLineStart s.data = none := by
    apply titleAtLineStart_eq_none
    apply h
    rw [htl]
    exact List.mem_cons_self _ _
  rw [h0]
  show titleScanTail s.data = none
  apply titleScanTail_eq_none
  intro part hp
  have hp2 : part ∈ tl := by
    rw [htl] at hp
    exact hp
  apply h
  rw [htl]
  exact List.mem_cons_of_mem _ hp2

/-- A `Title:` line after a block of non-matching lines also supplies the
title. -/
theorem markdownTitle_later (pre v rest : String)
    (hpre : ∀ part ∈ splitChar '\n' pre.data, ¬ "Title:".data.isPrefixOf part = true)
    (hnl : '\n' ∉ v.data) (hws : ∃ ch ∈ v.data, ¬ ch.isWhitespace = true) :
    markdownTitle (pre ++ "\n" ++ "Title:" ++ v ++ "\n" ++ rest) = some (jsTrim v) := by
  unfold markdownTitle
  rw [data_title_later]
  obtain ⟨tl, htl⟩ := splitChar_head '\n' pre.data
  have h0 : titleAtLineStart
      (pre.data ++ '\n' :: ("Title:".data ++ (v.data ++ '\n' :: rest.data))) = none := by
    apply titleAtLineStart_eq_none
    rw [takeWhile_append_stop _ '\n' _ (by simp)]
    apply hpre
    rw [htl]
    exact List.mem_cons_self _ _
  rw [h0]
  show titleScanTail
      (pre.data ++ '\n' :: ("Title:".data ++ (v.data ++ '\n' :: rest.data))) = some (jsTrim v)
  apply titleScanTail_append
  · intro part hp
    have hp2 : part ∈ tl := by
      rw [htl] at hp
      exact hp
    apply hpre
    rw [htl]
    exact List.mem_cons_of_mem _ hp2
  · exact titleAtLineStart_compute v.data rest.data hnl hws

/-- The Markdown path of `fetchMetadata`: attempt 1 failed, attempt 2
succeeded with a nonempty body, so the title is the (truncated) Markdown
title with the placeholder default. -/
theorem fetchMetadata_markdown_title (url body : String) (d : String → DocModel)
    (hne : ¬ body = "") :
    (fetchMetadata url none (some ⟨true, body⟩) d).title =
      truncateTitle ((markdownTitle body).getD "Enlace Guardado") := by
  unfold fetchMetadata
  dsimp only [attempt1Body]
  rw [if_neg (show ¬ ("" : String) ≠ "" by simp)]
  rw [if_pos (show true = true from rfl)]
  dsimp only
  rw [if_neg hne]
  dsimp only
  rw [if_pos (show true = true from rfl)]
  dsimp only [extractFromMarkdown]

/-- C8 (amended): in the Markdown fallback the title regex carries the `m`
flag, so `^Title:` matches at every line start, not only at the start of the
content: a body whose first line is `Title: v` titles the bookmark with the
trimmed `v` (truncated); a nonempty body none of whose lines starts with
`Title:` gets the placeholder `Enlace Guardado`; and a `Title: v` line
after any block of non-matching lines also supplies the trimmed `v`. -/
theorem C8_amended_title (url : String) (d : String → DocModel) :
    (∀ v rest : String, '\n' ∉ v.data → (∃ ch ∈ v.data, ¬ ch.isWhitespace = true) →
      (fetchMetadata url none (some ⟨true, "Title:" ++ v ++ "\n" ++ rest⟩) d).title =
        truncateTitle (jsTrim v)) ∧
    (∀ body : String, ¬ body = "" →
      (∀ part ∈ splitChar '\n' body.data, ¬ "Title:".data.isPrefixOf part = true) →
      (fetchMetadata url none (some ⟨true, body⟩) d).title = "Enlace Guardado") ∧
    (∀ pre v rest : String,
      (∀ part ∈ splitChar '\n' pre.data, ¬ "Title:".data.isPrefixOf part = true) →
      '\n' ∉ v.data → (∃ ch ∈ v.data, ¬ ch.isWhitespace = true) →
      (fetchMetadata url none
          (some ⟨true, pre ++ "\n" ++ "Title:" ++ v ++ "\n" ++ rest⟩) d).title =
        truncateTitle (jsTrim v)) := by
  refine ⟨?_, ?_, ?_⟩
  · intro v rest hnl hws
    have hne : ¬ ("Title:" ++ v ++ "\n" ++ rest) = "" := by
      apply strNe_empty
      rw [data_title_leading]
      simp
    rw [fetchMetadata_markdown_title url _ d hne]
    rw [markdownTitle_leading v rest hnl hws]
    rfl
  · intro body hne hparts
    rw [fetchMetadata_markdown_title url body d hne]
    rw [markdownTitle_none body hparts]
    decide
  · intro pre v rest hpre hnl hws
    have hne : ¬ (pre ++ "\n" ++ "Title:" ++ v ++ "\n" ++ rest) = "" := by
      apply strNe_empty
      rw [data_title_later]
      simp
    rw [fetchMetadata_markdown_title url _ d hne]
    rw [markdownTitle_later pre v rest hpre hnl hws]
    rfl

/-- Witness for `C8_amended_title`: a `Title:` line on the second line of
the body supplies the title in spite of a non-matching first line. -/
theorem C8_amended_witness :
    (fetchMetadata "https://ex.com" none
        (some ⟨true, "Hello world" ++ "\n" ++ "Title:" ++ " Real Title" ++ "\n" ++ "Body"⟩)
        (fun _ => emptyDoc)).title = "Real Title" := by
  rw [(C8_amended_title "https://ex.com" (fun _ => emptyDoc)).2.2 "Hello world"
    " Real Title" "Body" (by decide) (by decide) (by decide)]
  decide

end ListPreview
